/-
Verification of the `python-leetcode` practice repository.

Each Python source file is shallowly embedded: pure functions become Lean
functions on `Nat`/`Int`/`Rat`/`List`, Python's unbounded-integer bitwise
operators become the corresponding operations on `Nat`/`Int` (`Int.lnot` is
Python's `~`, and `x << n` on unbounded ints is `x * 2 ^ n`), and functions
that read files are embedded on the already-parsed line/row lists.
-/
import Mathlib

namespace LeetSpec

/-! ### Generic helpers about bits -/

/-- A natural number all of whose bits at positions `≥ w` are clear is `< 2 ^ w`. -/
lemma lt_two_pow_of_high_bits_false {x w : ℕ}
    (h : ∀ i, w ≤ i → x.testBit i = false) : x < 2 ^ w := by
  have hx : x = x % 2 ^ w := by
    apply Nat.eq_of_testBit_eq
    intro i
    rw [Nat.testBit_mod_two_pow]
    rcases lt_or_ge i w with hi | hi
    · simp [hi]
    · simp [Nat.not_lt.mpr hi, h i hi]
  calc x = x % 2 ^ w := hx
    _ < 2 ^ w := Nat.mod_lt _ (Nat.pos_pow_of_pos _ (by norm_num))

/-! ### `appl-reverse-bits.py` : `reverse_bits`

The source loops 32 times, each round moving the least significant bit of `n`
onto the bottom of `result`:

    result = 0
    for i in range(32):
        bit = n & 1
        result = (result << 1) | bit
        n >>= 1
    return result
-/

/-- One pass of the `reverse_bits` loop, with the remaining iteration count as
the recursion argument. -/
def reverseBitsAux (n result : ℕ) : ℕ → ℕ
  | 0 => result
  | t + 1 => reverseBitsAux (n >>> 1) ((result <<< 1) ||| (n &&& 1)) t

/-- `reverse_bits` from `appl-reverse-bits.py`: 32 iterations starting from 0. -/
def reverse_bits (n : ℕ) : ℕ := reverseBitsAux n 0 32

lemma one_testBit (i : ℕ) : (1 : ℕ).testBit i = decide (0 = i) := by
  simpa using (Nat.testBit_two_pow (n := 0) (m := i))

lemma reverseBitsAux_testBit (t : ℕ) :
    ∀ n acc j, (reverseBitsAux n acc t).testBit j =
      if j < t then n.testBit (t - 1 - j) else acc.testBit (j - t) := by
  induction t with
  | zero => intro n acc j; simp [reverseBitsAux]
  | succ t ih =>
    intro n acc j
    rw [reverseBitsAux, ih]
    rcases lt_trichotomy j t with hj | hj | hj
    · rw [if_pos hj, if_pos (by omega)]
      rw [Nat.testBit_shiftRight]
      congr 1
      omega
    · subst hj
      rw [if_neg (by omega), if_pos (by omega)]
      have h0 : j + 1 - 1 - j = 0 := by omega
      rw [h0]
      simp [Nat.testBit_lor, Nat.testBit_shiftLeft, Nat.testBit_land,
        one_testBit]
    · rw [if_neg (by omega), if_neg (by omega)]
      simp only [Nat.testBit_lor, Nat.testBit_shiftLeft, Nat.testBit_land,
        one_testBit]
      have h1 : decide (j - t ≥ 1) = true := by
        simp only [ge_iff_le, decide_eq_true_eq]; omega
      have h0 : decide (0 = j - t) = false := by
        apply decide_eq_false; omega
      rw [h1, h0]
      simp only [Bool.true_and, Bool.and_false, Bool.or_false]
      congr 1

lemma reverse_bits_testBit (n j : ℕ) :
    (reverse_bits n).testBit j =
      if j < 32 then n.testBit (31 - j) else false := by
  rw [reverse_bits, reverseBitsAux_testBit]
  rcases lt_or_ge j 32 with hj | hj
  · rw [if_pos hj, if_pos hj]
  · rw [if_neg (by omega), if_neg (by omega)]
    simp [Nat.zero_testBit]

/-- C3: for `0 ≤ n < 2^32`, `reverse_bits n` is the unique integer in
`[0, 2^32)` whose 32-bit binary representation is the reverse of `n`'s, and
`reverse_bits 13 = 2952790016`. -/
theorem c3_reverse_bits (n : ℕ) (hn : n < 2 ^ 32) :
    reverse_bits n < 2 ^ 32 ∧
    (∀ i, i < 32 → (reverse_bits n).testBit i = n.testBit (31 - i)) ∧
    (∀ m, m < 2 ^ 32 → (∀ i, i < 32 → m.testBit i = n.testBit (31 - i)) →
      m = reverse_bits n) ∧
    reverse_bits 13 = 2952790016 := by
  refine ⟨?_, ?_, ?_, ?_⟩
  · exact lt_two_pow_of_high_bits_false fun i hi => by
      rw [reverse_bits_testBit, if_neg (by omega)]
  · intro i hi
    rw [reverse_bits_testBit, if_pos hi]
  · intro m hm hbits
    apply Nat.eq_of_testBit_eq
    intro i
    rw [reverse_bits_testBit]
    rcases lt_or_ge i 32 with hi | hi
    · rw [if_pos hi, hbits i hi]
    · rw [if_neg (by omega)]
      exact Nat.testBit_eq_false_of_lt (lt_of_lt_of_le hm (Nat.pow_le_pow_right (by norm_num) hi))
  · rfl

/-- Witness for C3 at the concrete input `n = 13` from the spec. -/
theorem c3_reverse_bits_witness :
    reverse_bits 13 = 2952790016 ∧ reverse_bits 13 < 2 ^ 32 :=
  ⟨(c3_reverse_bits 13 (by norm_num)).2.2.2, (c3_reverse_bits 13 (by norm_num)).1⟩

/-! ### `1-power_of_2.py` : `is_power_of_two_basic` and
`is_power_of_two_bit_manipulation`

The basic version guards `n <= 0`, then repeatedly halves while even and
checks whether `1` remains.  The bit-manipulation version is
`n > 0 and (n & (n - 1)) == 0` on Python's unbounded signed integers.
-/

/-- The `while n % 2 == 0: n //= 2` loop of `is_power_of_two_basic`.  The
`n ≠ 0` conjunct only forces termination in Lean: the loop is entered with
`n ≥ 1` (the function returns early for `n ≤ 0`), and halving keeps the value
positive, so the extra conjunct never fires on reachable inputs. -/
def oddPart (n : ℕ) : ℕ :=
  if h : n % 2 = 0 ∧ n ≠ 0 then oddPart (n / 2) else n
  decreasing_by exact Nat.div_lt_self (Nat.pos_of_ne_zero h.2) (by norm_num)

/-- `is_power_of_two_basic` from `1-power_of_2.py`. -/
def is_power_of_two_basic (n : ℤ) : Bool :=
  if n ≤ 0 then false else oddPart n.toNat == 1

/-- `is_power_of_two_bit_manipulation` from `1-power_of_2.py`:
`n > 0 and (n & (n - 1)) == 0`. -/
def is_power_of_two_bit_manipulation (n : ℤ) : Bool :=
  decide (0 < n) && (Int.land n (n - 1) == 0)

lemma bit_false_eq (x : ℕ) : Nat.bit false x = 2 * x := congrFun Nat.bit_false x

lemma bit_true_eq (x : ℕ) : Nat.bit true x = 2 * x + 1 := congrFun Nat.bit_true x

lemma land_even_odd (x y : ℕ) : (2 * x) &&& (2 * y + 1) = 2 * (x &&& y) := by
  rw [← bit_false_eq x, ← bit_true_eq y, Nat.land_bit]
  simp only [Bool.false_and]
  exact bit_false_eq _

lemma land_odd_even (x y : ℕ) : (2 * x + 1) &&& (2 * y) = 2 * (x &&& y) := by
  rw [← bit_false_eq y, ← bit_true_eq x, Nat.land_bit]
  simp only [Bool.and_false]
  exact bit_false_eq _

lemma oddPart_eq_one_iff : ∀ n : ℕ, 0 < n → (oddPart n = 1 ↔ ∃ k : ℕ, n = 2 ^ k) := by
  intro n
  induction n using Nat.strong_induction_on with
  | _ n ih =>
    intro hn
    rcases Nat.even_or_odd n with he | ho
    · have h2 : n % 2 = 0 := Nat.even_iff.mp he
      rw [oddPart, dif_pos ⟨h2, Nat.pos_iff_ne_zero.mp hn⟩]
      have hhalf : 0 < n / 2 := Nat.div_pos (by omega) (by norm_num)
      rw [ih (n / 2) (Nat.div_lt_self hn (by norm_num)) hhalf]
      constructor
      · rintro ⟨k, hk⟩
        refine ⟨k + 1, ?_⟩
        rw [pow_succ]
        omega
      · rintro ⟨k, hk⟩
        rcases k with _ | k
        · rw [pow_zero] at hk
          omega
        · refine ⟨k, ?_⟩
          rw [pow_succ] at hk
          omega
    · have h2 : n % 2 = 1 := Nat.odd_iff.mp ho
      rw [oddPart, dif_neg (by omega)]
      constructor
      · rintro rfl
        exact ⟨0, rfl⟩
      · rintro ⟨k, rfl⟩
        rcases k with _ | k
        · rfl
        · have hmod : (2 ^ (k + 1)) % 2 = 0 := by
            rw [pow_succ, Nat.mul_mod_left]
          omega

lemma land_pred_eq_zero_iff :
    ∀ a : ℕ, 0 < a → (a &&& (a - 1) = 0 ↔ ∃ k : ℕ, a = 2 ^ k) := by
  intro a
  induction a using Nat.strong_induction_on with
  | _ a ih =>
    intro ha
    constructor
    · intro hand
      rcases Nat.even_or_odd a with he | ho
      · have h2 : a % 2 = 0 := Nat.even_iff.mp he
        obtain ⟨q, hq⟩ : ∃ q, a = 2 * q := ⟨a / 2, by omega⟩
        subst hq
        have hqpos : 0 < q := by omega
        rw [show 2 * q - 1 = 2 * (q - 1) + 1 by omega, land_even_odd] at hand
        have hq0 : q &&& (q - 1) = 0 := by omega
        obtain ⟨k, hk⟩ := (ih q (by omega) hqpos).mp hq0
        refine ⟨k + 1, ?_⟩
        rw [pow_succ]
        omega
      · have h2 : a % 2 = 1 := Nat.odd_iff.mp ho
        obtain ⟨q, hq⟩ : ∃ q, a = 2 * q + 1 := ⟨a / 2, by omega⟩
        subst hq
        rw [show 2 * q + 1 - 1 = 2 * q by omega, land_odd_even, Nat.and_self] at hand
        exact ⟨0, by omega⟩
    · rintro ⟨k, rfl⟩
      have h := Nat.and_pow_two_sub_one_eq_mod (2 ^ k) k
      rw [h, Nat.mod_self]

lemma int_pow_two_pos (k : ℕ) : (0 : ℤ) < 2 ^ k := pow_pos (by norm_num) k

lemma is_power_of_two_basic_iff (n : ℤ) :
    is_power_of_two_basic n = true ↔ ∃ k : ℕ, n = 2 ^ k := by
  unfold is_power_of_two_basic
  rcases le_or_lt n 0 with hn | hn
  · rw [if_pos hn]
    simp only [Bool.false_eq_true, false_iff]
    rintro ⟨k, rfl⟩
    exact absurd hn (not_le.mpr (int_pow_two_pos k))
  · rw [if_neg (not_le.mpr hn)]
    have htn : 0 < n.toNat := by omega
    rw [beq_iff_eq, oddPart_eq_one_iff n.toNat htn]
    constructor
    · rintro ⟨k, hk⟩
      refine ⟨k, ?_⟩
      have hcast := Int.toNat_of_nonneg (le_of_lt hn)
      rw [← hcast, hk]
      push_cast
      ring
    · rintro ⟨k, hk⟩
      refine ⟨k, ?_⟩
      have hcast : ((n.toNat : ℤ)) = ((2 ^ k : ℕ) : ℤ) := by
        rw [Int.toNat_of_nonneg (le_of_lt hn), hk]
        push_cast
        ring
      exact_mod_cast hcast

lemma is_power_of_two_bit_manipulation_iff (n : ℤ) :
    is_power_of_two_bit_manipulation n = true ↔ ∃ k : ℕ, n = 2 ^ k := by
  unfold is_power_of_two_bit_manipulation
  rcases le_or_lt n 0 with hn | hn
  · rw [decide_eq_false (not_lt.mpr hn)]
    simp only [Bool.false_and, Bool.false_eq_true, false_iff]
    rintro ⟨k, rfl⟩
    exact absurd hn (not_le.mpr (int_pow_two_pos k))
  · rw [decide_eq_true hn, Bool.true_and, beq_iff_eq]
    have hna : n = ((n.toNat : ℕ) : ℤ) := (Int.toNat_of_nonneg (le_of_lt hn)).symm
    have hapos : 0 < n.toNat := by omega
    rw [hna]
    rw [show (((n.toNat : ℕ) : ℤ) - 1) = ((n.toNat - 1 : ℕ) : ℤ) by omega]
    rw [show Int.land ((n.toNat : ℕ) : ℤ) ((n.toNat - 1 : ℕ) : ℤ)
          = ((n.toNat &&& (n.toNat - 1) : ℕ) : ℤ) by simp [Int.land]]
    rw [show ((0 : ℤ) = ((0 : ℕ) : ℤ)) from rfl, Int.natCast_inj]
    rw [land_pred_eq_zero_iff n.toNat hapos]
    constructor
    · rintro ⟨k, hk⟩
      refine ⟨k, ?_⟩
      rw [hk]
      push_cast
      ring
    · rintro ⟨k, hk⟩
      exact ⟨k, by exact_mod_cast hk⟩

/-- C4: both `is_power_of_two_basic` and `is_power_of_two_bit_manipulation`
return `true` exactly on the integers of the form `2 ^ k` (`k ≥ 0`), including
for zero and negative inputs, and both return `true` on `8`. -/
theorem c4_power_of_two (n : ℤ) :
    (is_power_of_two_basic n = true ↔ ∃ k : ℕ, n = 2 ^ k) ∧
    (is_power_of_two_bit_manipulation n = true ↔ ∃ k : ℕ, n = 2 ^ k) ∧
    is_power_of_two_basic 8 = true ∧ is_power_of_two_bit_manipulation 8 = true :=
  ⟨is_power_of_two_basic_iff n, is_power_of_two_bit_manipulation_iff n,
    (is_power_of_two_basic_iff 8).mpr ⟨3, by norm_num⟩,
    (is_power_of_two_bit_manipulation_iff 8).mpr ⟨3, by norm_num⟩⟩

/-! ### `binary_search_deep_dive.py` : `safe_binary_search`

    left, right = 0, len(arr) - 1
    while left <= right:
        mid = left + (right - left) // 2
        ...

Python's `//` on ints is floor division, which on the nonnegative quantities
here agrees with `Int.ediv` (`/` on `ℤ`).
-/

/-- The `while left <= right` loop of `safe_binary_search`. -/
def sbsLoop (arr : List ℤ) (target : ℤ) (left right : ℤ) : ℤ :=
  if h : left ≤ right then
    let mid := left + (right - left) / 2
    let v := arr.getD mid.toNat 0
    if v = target then mid
    else if v < target then sbsLoop arr target (mid + 1) right
    else sbsLoop arr target left (mid - 1)
  else -1
  termination_by (right + 1 - left).toNat
  decreasing_by
  · have h0 : 0 ≤ (right - left) / 2 := Int.ediv_nonneg (by omega) (by norm_num)
    have h1 : (right - left) / 2 ≤ right - left := Int.ediv_le_self _ (by omega)
    omega
  · have h0 : 0 ≤ (right - left) / 2 := Int.ediv_nonneg (by omega) (by norm_num)
    have h1 : (right - left) / 2 ≤ right - left := Int.ediv_le_self _ (by omega)
    omega

/-- `safe_binary_search` from `binary_search_deep_dive.py`: empty-array guard,
then the overflow-safe loop over `[0, len(arr) - 1]`. -/
def safe_binary_search (arr : List ℤ) (target : ℤ) : ℤ :=
  if arr = [] then -1
  else sbsLoop arr target 0 ((arr.length : ℤ) - 1)

lemma sorted_getD_mono (arr : List ℤ) (hs : List.Sorted (· ≤ ·) arr) {i j : ℕ}
    (hij : i ≤ j) (hj : j < arr.length) : arr.getD i 0 ≤ arr.getD j 0 := by
  rcases eq_or_lt_of_le hij with rfl | hlt
  · exact le_refl _
  · have hi : i < arr.length := lt_trans hlt hj
    rw [List.getD_eq_get arr 0 hi, List.getD_eq_get arr 0 hj]
    exact hs.rel_get_of_lt hlt

lemma mem_iff_exists_getD (arr : List ℤ) (x : ℤ) :
    x ∈ arr ↔ ∃ i : ℕ, i < arr.length ∧ arr.getD i 0 = x := by
  constructor
  · intro hx
    obtain ⟨⟨i, hilen⟩, hi⟩ := List.get_of_mem hx
    exact ⟨i, hilen, by rw [List.getD_eq_get arr 0 hilen]; exact hi⟩
  · rintro ⟨i, hi, rfl⟩
    rw [List.getD_eq_get arr 0 hi]
    exact List.get_mem arr i hi

lemma sbsLoop_correct (arr : List ℤ) (target : ℤ) (hs : List.Sorted (· ≤ ·) arr) :
    ∀ left right : ℤ, 0 ≤ left → right < (arr.length : ℤ) →
    (∀ i : ℕ, i < arr.length → ((i : ℤ) < left ∨ right < (i : ℤ)) →
      arr.getD i 0 ≠ target) →
    (target ∈ arr →
      ∃ i : ℕ, sbsLoop arr target left right = (i : ℤ) ∧ i < arr.length ∧
        arr.getD i 0 = target) ∧
    (target ∉ arr → sbsLoop arr target left right = -1) := by
  intro left right
  induction left, right using sbsLoop.induct arr target with
  | case1 left right h mid v hv =>
    intro hl hr hout
    rw [sbsLoop, dif_pos h, if_pos hv]
    have hmid0 : 0 ≤ (right - left) / 2 := Int.ediv_nonneg (by omega) (by norm_num)
    have hmlt : mid < (arr.length : ℤ) := by
      have := Int.ediv_le_self 2 (show (0:ℤ) ≤ right - left by omega)
      simp only [mid]
      omega
    have hmnat : ((mid.toNat : ℤ)) = mid := Int.toNat_of_nonneg (by simp only [mid]; omega)
    constructor
    · intro _
      refine ⟨mid.toNat, hmnat.symm, ?_, hv⟩
      omega
    · intro habs
      exact absurd ((mem_iff_exists_getD arr target).mpr ⟨mid.toNat, by omega, hv⟩) habs
  | case2 left right h mid v hne hlt ih =>
    intro hl hr hout
    rw [sbsLoop, dif_pos h]
    simp only [if_neg hne, if_pos hlt]
    have hmid0 : 0 ≤ (right - left) / 2 := Int.ediv_nonneg (by omega) (by norm_num)
    have hmle : (right - left) / 2 ≤ right - left := Int.ediv_le_self _ (by omega)
    apply ih (by omega) hr
    intro i hi hrange
    rcases hrange with hlo | hhi
    · rcases lt_or_ge (i : ℤ) left with hll | hge
      · exact hout i hi (Or.inl hll)
      · intro he
        have hile : i ≤ mid.toNat := by omega
        have hmlen : mid.toNat < arr.length := by omega
        have := sorted_getD_mono arr hs hile hmlen
        rw [he] at this
        have hvm : arr.getD mid.toNat 0 = v := rfl
        omega
    · exact hout i hi (Or.inr hhi)
  | case3 left right h mid v hne hnlt ih =>
    intro hl hr hout
    rw [sbsLoop, dif_pos h]
    simp only [if_neg hne, if_neg hnlt]
    have hmid0 : 0 ≤ (right - left) / 2 := Int.ediv_nonneg (by omega) (by norm_num)
    have hmle : (right - left) / 2 ≤ right - left := Int.ediv_le_self _ (by omega)
    apply ih hl (by omega)
    intro i hi hrange
    rcases hrange with hlo | hhi
    · exact hout i hi (Or.inl hlo)
    · rcases lt_or_ge right ((i : ℤ)) with hgg | hge
      · exact hout i hi (Or.inr hgg)
      · intro he
        have hmle2 : mid.toNat ≤ i := by omega
        have := sorted_getD_mono arr hs hmle2 hi
        rw [he] at this
        have hvm : arr.getD mid.toNat 0 = v := rfl
        omega
  | case4 left right h =>
    intro hl hr hout
    rw [sbsLoop, dif_neg h]
    constructor
    · intro hmem
      obtain ⟨i, hi, hgd⟩ := (mem_iff_exists_getD arr target).mp hmem
      exact absurd hgd (hout i hi (by omega))
    · intro _
      rfl

/-- C6: on a list sorted in non-decreasing order, `safe_binary_search` returns
an index holding `target` when `target` occurs, and `-1` otherwise (including
on the empty list). -/
theorem c6_safe_binary_search (arr : List ℤ) (target : ℤ)
    (hs : List.Sorted (· ≤ ·) arr) :
    (target ∈ arr →
      ∃ i : ℕ, safe_binary_search arr target = (i : ℤ) ∧ i < arr.length ∧
        arr.getD i 0 = target) ∧
    (target ∉ arr → safe_binary_search arr target = -1) := by
  unfold safe_binary_search
  rcases eq_or_ne arr [] with rfl | hne
  · rw [if_pos rfl]
    exact ⟨fun h => absurd h (List.not_mem_nil _), fun _ => rfl⟩
  · rw [if_neg hne]
    apply sbsLoop_correct arr target hs 0 ((arr.length : ℤ) - 1) (by omega) (by omega)
    intro i hi hrange
    omega

/-- Witness for C6: both branches at concrete sorted inputs. -/
theorem c6_safe_binary_search_witness :
    (∃ i : ℕ, safe_binary_search ([1, 3, 5] : List ℤ) 5 = (i : ℤ) ∧
      i < ([1, 3, 5] : List ℤ).length ∧ ([1, 3, 5] : List ℤ).getD i 0 = 5) ∧
    safe_binary_search ([1, 3, 5] : List ℤ) 4 = -1 :=
  ⟨(c6_safe_binary_search [1, 3, 5] 5 (by decide)).1 (by decide),
   (c6_safe_binary_search [1, 3, 5] 4 (by decide)).2 (by decide)⟩

/-! ### `two_sum_deep_dive.py` : `two_sum_hash_table` and `optimized_two_sum`

Both walk the list once, keeping a dict from seen value to its index:

    for i, num in enumerate(nums):
        complement = target - num
        if complement in hash_map: return [hash_map[complement], i]
        hash_map[num] = i
    return []

The dict is embedded as a function `ℤ → Option ℕ`; inserting overwrites, as
Python's `hash_map[num] = i` does.
-/

/-- The shared enumeration loop of both two-sum variants: `numMap` is the dict
built from the elements before index `i`, `rest` the elements from `i` on. -/
def twoSumAux (target : ℤ) (numMap : ℤ → Option ℕ) (i : ℕ) : List ℤ → List ℕ
  | [] => []
  | num :: rest =>
    match numMap (target - num) with
    | some j => [j, i]
    | none => twoSumAux target (fun x => if x = num then some i else numMap x) (i + 1) rest

/-- `optimized_two_sum` from `two_sum_deep_dive.py`. -/
def optimized_two_sum (nums : List ℤ) (target : ℤ) : List ℕ :=
  twoSumAux target (fun _ => none) 0 nums

/-- `two_sum_hash_table` from `two_sum_deep_dive.py`; identical to
`optimized_two_sum` up to the progress printing, which does not affect the
returned value. -/
def two_sum_hash_table (nums : List ℤ) (target : ℤ) : List ℕ :=
  twoSumAux target (fun _ => none) 0 nums

lemma twoSumAux_correct (nums : List ℤ) (target : ℤ) :
    ∀ rest : List ℤ, ∀ i : ℕ, ∀ numMap : ℤ → Option ℕ,
    nums.drop i = rest →
    (∀ v j, numMap v = some j → j < i ∧ nums.getD j 0 = v) →
    (∀ j, j < i → numMap (nums.getD j 0) ≠ none) →
    (∀ p q, p < q → q < i → nums.getD p 0 + nums.getD q 0 ≠ target) →
    ((∃ p q, p < q ∧ q < nums.length ∧ nums.getD p 0 + nums.getD q 0 = target) →
      ∃ p q : ℕ, twoSumAux target numMap i rest = [p, q] ∧ p < q ∧
        q < nums.length ∧ nums.getD p 0 + nums.getD q 0 = target) ∧
    ((¬ ∃ p q, p < q ∧ q < nums.length ∧ nums.getD p 0 + nums.getD q 0 = target) →
      twoSumAux target numMap i rest = []) := by
  intro rest
  induction rest with
  | nil =>
    intro i numMap hdrop hmap hcomp hnone
    have hlen : nums.length ≤ i := by
      by_contra hc
      push_neg at hc
      have := List.drop_eq_nil_iff_le.mp hdrop
      omega
    constructor
    · rintro ⟨p, q, hpq, hql, hsum⟩
      exact absurd hsum (hnone p q hpq (by omega))
    · intro _
      rfl
  | cons num rest ih =>
    intro i numMap hdrop hmap hcomp hnone
    have hilen : i < nums.length := by
      by_contra hc
      push_neg at hc
      rw [List.drop_eq_nil_iff_le.mpr hc] at hdrop
      exact List.noConfusion hdrop
    have hnum : nums.getD i 0 = num := by
      have h3 : nums[i]? = some num := by
        rw [← List.head?_drop, hdrop]
        rfl
      have h4 : nums[i]? = some (nums.get ⟨i, hilen⟩) := List.getElem?_eq_getElem hilen
      rw [List.getD_eq_get nums 0 hilen]
      exact Option.some_injective _ (h4.symm.trans h3)
    rw [twoSumAux]
    rcases hm : numMap (target - num) with _ | j
    · -- complement not present: insert and recurse
      have hdrop' : nums.drop (i + 1) = rest := by
        rw [← List.tail_drop, hdrop]
        rfl
      have hmap' : ∀ v j, (fun x => if x = num then some i else numMap x) v = some j →
          j < i + 1 ∧ nums.getD j 0 = v := by
        intro v j hv
        by_cases hvn : v = num
        · subst hvn
          simp only [if_pos rfl] at hv
          obtain rfl : i = j := Option.some_injective _ hv
          exact ⟨by omega, hnum⟩
        · simp only [if_neg hvn] at hv
          obtain ⟨h1, h2⟩ := hmap v j hv
          exact ⟨by omega, h2⟩
      have hcomp' : ∀ j, j < i + 1 → (fun x => if x = num then some i else numMap x)
          (nums.getD j 0) ≠ none := by
        intro j hj
        by_cases hvn : nums.getD j 0 = num
        · intro hx
          simp only [if_pos hvn] at hx
          exact Option.noConfusion hx
        · intro hx
          simp only [if_neg hvn] at hx
          rcases lt_or_ge j i with hji | hji
          · exact hcomp j hji hx
          · have hje : j = i := by omega
            rw [hje, hnum] at hvn
            exact hvn rfl
      have hnone' : ∀ p q, p < q → q < i + 1 → nums.getD p 0 + nums.getD q 0 ≠ target := by
        intro p q hpq hq
        rcases lt_or_ge q i with hqi | hqi
        · exact hnone p q hpq hqi
        · have hqe : q = i := by omega
          subst hqe
          intro hsum
          have hpv : numMap (nums.getD p 0) ≠ none := hcomp p hpq
          have : nums.getD p 0 = target - num := by rw [hnum] at hsum; omega
          rw [this, hm] at hpv
          exact hpv rfl
      exact ih (i + 1) _ hdrop' hmap' hcomp' hnone'
    · -- complement found at index j: return [j, i]
      obtain ⟨hji, hjv⟩ := hmap _ j hm
      have hpair : j < i ∧ i < nums.length ∧ nums.getD j 0 + nums.getD i 0 = target := by
        refine ⟨hji, hilen, ?_⟩
        rw [hjv, hnum]
        ring
      constructor
      · intro _
        exact ⟨j, i, rfl, hpair.1, hpair.2.1, hpair.2.2⟩
      · intro hne
        exact absurd ⟨j, i, hpair.1, hpair.2.1, hpair.2.2⟩ hne

/-- C5: the hash-table two-sum returns a valid index pair `[p, q]` with
`p < q` and `nums[p] + nums[q] = target` whenever such a pair exists, returns
`[]` when none exists, and on `[2, 7, 11, 15]` with target `9` returns
`[0, 1]`; `two_sum_hash_table` computes the same list as `optimized_two_sum`. -/
theorem c5_two_sum (nums : List ℤ) (target : ℤ) :
    ((∃ p q, p < q ∧ q < nums.length ∧ nums.getD p 0 + nums.getD q 0 = target) →
      ∃ p q : ℕ, optimized_two_sum nums target = [p, q] ∧ p < q ∧
        q < nums.length ∧ nums.getD p 0 + nums.getD q 0 = target) ∧
    ((¬ ∃ p q, p < q ∧ q < nums.length ∧ nums.getD p 0 + nums.getD q 0 = target) →
      optimized_two_sum nums target = []) ∧
    two_sum_hash_table nums target = optimized_two_sum nums target ∧
    optimized_two_sum [2, 7, 11, 15] 9 = [0, 1] := by
  have h := twoSumAux_correct nums target nums 0 (fun _ => none) rfl
    (by intro v j hv; exact Option.noConfusion hv)
    (by intro j hj; omega)
    (by intro p q hpq hq; omega)
  exact ⟨h.1, h.2, rfl, rfl⟩

/-- Witness for C5: the theorem applied at the spec's concrete input
`two_sum([2,7,11,15], 9) == [0,1]`. -/
theorem c5_two_sum_witness :
    ∃ p q : ℕ, optimized_two_sum ([2, 7, 11, 15] : List ℤ) 9 = [p, q] ∧ p < q ∧
      q < ([2, 7, 11, 15] : List ℤ).length ∧
      ([2, 7, 11, 15] : List ℤ).getD p 0 + ([2, 7, 11, 15] : List ℤ).getD q 0 = 9 :=
  (c5_two_sum [2, 7, 11, 15] 9).1 ⟨0, 1, by decide, by decide, by decide⟩

/-! ### `parse-ltssm-logfile.py` : `parse_ltssm_trace`, field `first_l0_time`

The CSV reading is abstracted: the embedding receives the already-parsed rows.
Inside the analysis loop, `first_l0_time` is updated only by

    for i, event in enumerate(events[1:], 1):
        ...
        if event.state == "L0" and first_l0_time is None:
            first_l0_time = event.timestamp

and none of the other accumulators (dwell times, retrain count, speed
changes) feed back into it, so the embedding tracks exactly this variable.
Note the loop runs over `events[1:]`: the first row is never examined.
-/

/-- A parsed row of the LTSSM CSV trace (`LTSSMEvent` in the source). -/
structure LTSSMEvent where
  timestamp : ℚ
  state : String
  data : String
deriving DecidableEq

/-- One iteration of the `first_l0_time` update in `parse_ltssm_trace`. -/
def firstL0Step (acc : Option ℚ) (e : LTSSMEvent) : Option ℚ :=
  if e.state = "L0" ∧ acc = none then some e.timestamp else acc

/-- The `first_l0_time` field of `parse_ltssm_trace`: `None` for an empty
trace, otherwise the fold of `firstL0Step` over `events[1:]`. -/
def first_l0_time (events : List LTSSMEvent) : Option ℚ :=
  match events with
  | [] => none
  | _ :: rest => rest.foldl firstL0Step none

lemma firstL0Step_some (l : List LTSSMEvent) (t : ℚ) :
    l.foldl firstL0Step (some t) = some t := by
  induction l with
  | nil => rfl
  | cons e l ih =>
    rw [List.foldl_cons]
    have : firstL0Step (some t) e = some t := by
      unfold firstL0Step
      rw [if_neg]
      rintro ⟨_, h⟩
      exact Option.noConfusion h
    rw [this, ih]

lemma firstL0Fold_char :
    ∀ l : List LTSSMEvent,
    List.Pairwise (fun a b => a.timestamp ≤ b.timestamp) l →
    (l.foldl firstL0Step none = none ↔ ∀ e ∈ l, e.state ≠ "L0") ∧
    (∀ t : ℚ, l.foldl firstL0Step none = some t →
      (∃ e ∈ l, e.state = "L0" ∧ e.timestamp = t) ∧
      ∀ e ∈ l, e.state = "L0" → t ≤ e.timestamp) := by
  intro l
  induction l with
  | nil =>
    intro _
    exact ⟨by simp, fun t ht => Option.noConfusion ht⟩
  | cons a l ih =>
    intro hp
    obtain ⟨ha, hl⟩ := List.pairwise_cons.mp hp
    by_cases hL0 : a.state = "L0"
    · have hstep : firstL0Step none a = some a.timestamp := by
        unfold firstL0Step
        rw [if_pos ⟨hL0, rfl⟩]
      rw [List.foldl_cons, hstep, firstL0Step_some]
      constructor
      · constructor
        · intro h; exact Option.noConfusion h
        · intro h; exact absurd hL0 (h a (List.mem_cons_self a l))
      · intro t ht
        obtain rfl : a.timestamp = t := Option.some_injective _ ht
        refine ⟨⟨a, List.mem_cons_self a l, hL0, rfl⟩, ?_⟩
        intro e he _
        rcases List.mem_cons.mp he with rfl | hel
        · exact le_refl _
        · exact ha e hel
    · have hstep : firstL0Step none a = none := by
        unfold firstL0Step
        rw [if_neg]
        rintro ⟨h, _⟩
        exact hL0 h
      rw [List.foldl_cons, hstep]
      obtain ⟨ih1, ih2⟩ := ih hl
      constructor
      · rw [ih1]
        constructor
        · intro h e he
          rcases List.mem_cons.mp he with rfl | hel
          · exact hL0
          · exact h e hel
        · intro h e he
          exact h e (List.mem_cons_of_mem a he)
      · intro t ht
        obtain ⟨⟨e, he, heL0, het⟩, hmin⟩ := ih2 t ht
        refine ⟨⟨e, List.mem_cons_of_mem a he, heL0, het⟩, ?_⟩
        intro f hf hfL0
        rcases List.mem_cons.mp hf with rfl | hfl
        · exact absurd hfL0 hL0
        · exact hmin f hfl hfL0

/-- C7 counterexample: a well-formed one-row trace that is already in state
`L0` at timestamp `0`.  The claim says `first_l0_time` should be `some 0`
(the earliest `L0` row), but the code skips `events[0]` and returns `none`. -/
theorem c7_counterexample :
    (∃ e ∈ [(⟨0, "L0", ""⟩ : LTSSMEvent)], e.state = "L0" ∧ e.timestamp = 0) ∧
    first_l0_time [(⟨0, "L0", ""⟩ : LTSSMEvent)] = none :=
  ⟨⟨⟨0, "L0", ""⟩, List.mem_cons_self _ _, rfl, rfl⟩, rfl⟩

/-- C7 (amended): for a trace with non-decreasing timestamps,
`first_l0_time` is the timestamp of the earliest event **after the first
row** whose state is `"L0"`, and `none` when no such event exists; a row in
state `"L0"` at position 0 is ignored. -/
theorem c7_first_l0_time (events : List LTSSMEvent)
    (hsort : List.Pairwise (fun a b => a.timestamp ≤ b.timestamp) events) :
    (first_l0_time events = none ↔ ∀ e ∈ events.tail, e.state ≠ "L0") ∧
    (∀ t : ℚ, first_l0_time events = some t →
      (∃ e ∈ events.tail, e.state = "L0" ∧ e.timestamp = t) ∧
      ∀ e ∈ events.tail, e.state = "L0" → t ≤ e.timestamp) := by
  match events with
  | [] =>
    exact ⟨by simp [first_l0_time], fun t ht => Option.noConfusion ht⟩
  | e0 :: rest =>
    have hrest : List.Pairwise (fun a b => a.timestamp ≤ b.timestamp) rest :=
      (List.pairwise_cons.mp hsort).2
    exact firstL0Fold_char rest hrest

/-- Witness for C7 (amended) on a concrete sorted trace reaching `L0` at
time 2. -/
theorem c7_first_l0_time_witness :
    (∃ e ∈ ([⟨0, "Detect", ""⟩, ⟨1, "Polling", ""⟩, ⟨2, "L0", ""⟩,
        ⟨3, "L0", ""⟩] : List LTSSMEvent).tail, e.state = "L0" ∧ e.timestamp = 2) ∧
    ∀ e ∈ ([⟨0, "Detect", ""⟩, ⟨1, "Polling", ""⟩, ⟨2, "L0", ""⟩,
        ⟨3, "L0", ""⟩] : List LTSSMEvent).tail, e.state = "L0" → (2 : ℚ) ≤ e.timestamp :=
  (c7_first_l0_time [⟨0, "Detect", ""⟩, ⟨1, "Polling", ""⟩, ⟨2, "L0", ""⟩,
      ⟨3, "L0", ""⟩] (by decide)).2 2 rfl

/-! ### `nvda-parse-log-print-line-before-after-target.py` :
`grep_with_context` and `grep_with_context_streaming`

The file reading is abstracted: both embeddings receive the list of
already-stripped lines.  Python's substring test `pattern in line` is embedded
as infix containment of the character lists.

`grep_with_context` indexes the whole list:

    for i, line in enumerate(lines):
        if pattern in line:
            prev = lines[i-1] if i > 0 else None
            next = lines[i+1] if i < len(lines)-1 else None
            results.append((prev, line, next))

`grep_with_context_streaming` keeps a `deque(maxlen=3)` window, seeds it with
the first two lines, checks `window[-2]` as each further line is appended, and
finally checks `window[-1]`.
-/

/-- Python's `pattern in line` on strings: the pattern's characters occur
contiguously inside the line's characters. -/
def pyIn (pattern line : String) : Bool :=
  decide (pattern.toList <:+: line.toList)

/-- A result triple `(prev_line, match_line, next_line)`. -/
abbrev GrepTriple := Option String × String × Option String

/-- `grep_with_context` from the source, on the list of stripped lines. -/
def grep_with_context (lines : List String) (pattern : String) : List GrepTriple :=
  (List.range lines.length).foldl
    (fun results i =>
      if pyIn pattern (lines.getD i "") then
        results ++ [((if i > 0 then some (lines.getD (i - 1) "") else none),
                     lines.getD i "",
                     (if i < lines.length - 1 then some (lines.getD (i + 1) "") else none))]
      else results)
    []

/-- `window.append(line)` on a `deque(maxlen=3)`: when the window is full the
leftmost entry is discarded. -/
def push3 (w : List String) (x : String) : List String :=
  let w2 := w ++ [x]
  if w2.length > 3 then w2.drop (w2.length - 3) else w2

/-- The main loop and final check of `grep_with_context_streaming`: first
argument is the current window, second the remaining lines. -/
def grepStreamLoop (pattern : String) : List String → List String → List GrepTriple
  | w, [] =>
    if w.length ≥ 1 ∧ pyIn pattern (w.getD (w.length - 1) "") then
      [((if w.length ≥ 2 then some (w.getD (w.length - 2) "") else none),
        w.getD (w.length - 1) "", none)]
    else []
  | w, line :: rest =>
    let w2 := push3 w line
    (if w2.length ≥ 2 ∧ pyIn pattern (w2.getD (w2.length - 2) "") then
      [((if w2.length = 3 then some (w2.getD 0 "") else none),
        w2.getD (w2.length - 2) "", some (w2.getD (w2.length - 1) ""))]
    else []) ++ grepStreamLoop pattern w2 rest

/-- `grep_with_context_streaming` from the source: the window is seeded with
(up to) the first two lines, then the loop consumes the rest. -/
def grep_with_context_streaming (lines : List String) (pattern : String) :
    List GrepTriple :=
  grepStreamLoop pattern (lines.take 2) (lines.drop 2)

/-- C8 counterexample: when the log's first line contains the pattern and the
log has a second line, the streaming version misses that match (its loop
checks lines `1 .. n-2` and the final check looks only at line `n-1`). -/
theorem c8_counterexample :
    grep_with_context ["ERROR boot", "ok"] "ERROR" ≠
      grep_with_context_streaming ["ERROR boot", "ok"] "ERROR" := by decide

/-- The positional recursion both functions are reduced to: emit a triple for
`cur` (with the given previous line), then walk the rest. -/
def gAux (pattern : String) : Option String → String → List String → List GrepTriple
  | prev, cur, [] => if pyIn pattern cur then [(prev, cur, none)] else []
  | prev, cur, nxt :: rest =>
    (if pyIn pattern cur then [(prev, cur, some nxt)] else []) ++
      gAux pattern (some cur) nxt rest

/-- The indexed form of `grep_with_context`, with an override for the
previous-line of index 0. -/
def grepIdx (pattern : String) (prev0 : Option String) (l : List String) :
    List GrepTriple :=
  (List.range l.length).filterMap
    (fun i =>
      if pyIn pattern (l.getD i "") then
        some ((if i = 0 then prev0 else some (l.getD (i - 1) "")),
              l.getD i "",
              (if i < l.length - 1 then some (l.getD (i + 1) "") else none))
      else none)

lemma foldl_emit_eq_filterMap {α β : Type} (p : α → Bool) (g : α → β) :
    ∀ (l : List α) (acc : List β),
    l.foldl (fun results x => if p x then results ++ [g x] else results) acc
      = acc ++ l.filterMap (fun x => if p x then some (g x) else none) := by
  intro l
  induction l with
  | nil => intro acc; simp
  | cons x l ih =>
    intro acc
    by_cases hp : p x = true
    · rw [List.foldl_cons, if_pos hp, ih, List.filterMap_cons]
      simp [hp]
    · rw [List.foldl_cons, if_neg hp, ih, List.filterMap_cons]
      simp [hp]

lemma grep_with_context_eq_grepIdx (lines : List String) (pattern : String) :
    grep_with_context lines pattern = grepIdx pattern none lines := by
  unfold grep_with_context grepIdx
  rw [foldl_emit_eq_filterMap, List.nil_append]
  apply List.filterMap_congr
  intro i _
  by_cases hm : pyIn pattern (lines.getD i "") = true
  · rw [if_pos hm, if_pos hm]
    rcases Nat.eq_zero_or_pos i with rfl | hi
    · rw [if_neg (by omega : ¬ (0 : ℕ) > 0), if_pos rfl]
    · rw [if_pos hi, if_neg (by omega : ¬ i = 0)]
  · rw [if_neg hm, if_neg hm]

lemma filterMap_range_succ_decomp {β : Type} (f : ℕ → Option β) (n : ℕ) :
    List.filterMap f (List.range (n + 1)) =
      (f 0).toList ++ List.filterMap (fun i => f (i + 1)) (List.range n) := by
  rw [List.range_succ_eq_map, List.filterMap_cons, List.filterMap_map]
  have htail : List.filterMap (f ∘ Nat.succ) (List.range n) =
      List.filterMap (fun i => f (i + 1)) (List.range n) := rfl
  rw [htail]
  rcases f 0 with _ | t
  · simp
  · simp

lemma grepIdx_cons (pattern : String) (prev0 : Option String) (cur : String)
    (rest : List String) :
    grepIdx pattern prev0 (cur :: rest) =
      (if pyIn pattern cur then
        [(prev0, cur, (if rest = [] then none else some (rest.getD 0 "")))]
      else []) ++ grepIdx pattern (some cur) rest := by
  unfold grepIdx
  rw [show (cur :: rest).length = rest.length + 1 from rfl]
  rw [filterMap_range_succ_decomp]
  have hhead : (Option.toList (if pyIn pattern ((cur :: rest).getD 0 "") then
        some ((if 0 = 0 then prev0 else some ((cur :: rest).getD (0 - 1) "")),
              (cur :: rest).getD 0 "",
              (if 0 < rest.length + 1 - 1 then some ((cur :: rest).getD (0 + 1) "") else none))
      else none)) =
      (if pyIn pattern cur then
        [(prev0, cur, (if rest = [] then none else some (rest.getD 0 "")))]
      else []) := by
    by_cases hm : pyIn pattern cur = true
    · rw [List.getD_cons_zero] at *
      rw [if_pos hm, if_pos hm, if_pos rfl]
      have hnext : (if 0 < rest.length + 1 - 1 then some ((cur :: rest).getD (0 + 1) "") else none)
          = (if rest = [] then none else some (rest.getD 0 "")) := by
        rcases rest with _ | ⟨r, rs⟩
        · simp
        · simp
      rw [hnext]
      rfl
    · rw [List.getD_cons_zero, if_neg hm, if_neg hm]
      rfl
  have htail : List.filterMap
      (fun i => if pyIn pattern ((cur :: rest).getD (i + 1) "") then
          some ((if i + 1 = 0 then prev0 else some ((cur :: rest).getD (i + 1 - 1) "")),
                (cur :: rest).getD (i + 1) "",
                (if i + 1 < rest.length + 1 - 1 then some ((cur :: rest).getD (i + 1 + 1) "") else none))
        else none) (List.range rest.length) =
      List.filterMap
      (fun i => if pyIn pattern (rest.getD i "") then
          some ((if i = 0 then some cur else some (rest.getD (i - 1) "")),
                rest.getD i "",
                (if i < rest.length - 1 then some (rest.getD (i + 1) "") else none))
        else none) (List.range rest.length) := by
    apply List.filterMap_congr
    intro i hi
    rw [List.mem_range] at hi
    simp only [List.getD_cons_succ]
    by_cases hm : pyIn pattern (rest.getD i "") = true
    · rw [if_pos hm, if_pos hm]
      have hprev : (if i + 1 = 0 then prev0 else some ((cur :: rest).getD (i + 1 - 1) "")) =
          (if i = 0 then some cur else some (rest.getD (i - 1) "")) := by
        rw [if_neg (by omega : ¬ i + 1 = 0)]
        rcases Nat.eq_zero_or_pos i with rfl | hpos
        · rw [if_pos rfl]
          rfl
        · rw [if_neg (by omega : ¬ i = 0)]
          have h1 : i + 1 - 1 = (i - 1) + 1 := by omega
          rw [h1, List.getD_cons_succ]
      have hnext : (if i + 1 < rest.length + 1 - 1 then some (rest.getD (i + 1) "") else none) =
          (if i < rest.length - 1 then some (rest.getD (i + 1) "") else none) := by
        rcases lt_or_ge i (rest.length - 1) with hlt | hge
        · rw [if_pos (by omega), if_pos hlt]
        · rw [if_neg (by omega), if_neg (by omega)]
      rw [hprev, hnext]
    · rw [if_neg hm, if_neg hm]
  exact congrArg₂ (fun a b => a ++ b) hhead htail

lemma grepIdx_eq_gAux (pattern : String) :
    ∀ (rest : List String) (cur : String) (prev0 : Option String),
    grepIdx pattern prev0 (cur :: rest) = gAux pattern prev0 cur rest := by
  intro rest
  induction rest with
  | nil =>
    intro cur prev0
    rw [grepIdx_cons, gAux]
    simp [grepIdx]
  | cons nxt rest ih =>
    intro cur prev0
    rw [grepIdx_cons, gAux, ih]
    congr 1


lemma push3_two (a b x : String) : push3 [a, b] x = [a, b, x] := rfl

lemma push3_three (a b c x : String) : push3 [a, b, c] x = [b, c, x] := rfl

lemma grepStreamLoop_three (pattern : String) :
    ∀ (rest : List String) (a b c : String),
    grepStreamLoop pattern [a, b, c] rest = gAux pattern (some b) c rest := by
  intro rest
  induction rest with
  | nil =>
    intro a b c
    rw [grepStreamLoop, gAux]
    by_cases hm : pyIn pattern c = true
    · rw [if_pos ⟨by simp, hm⟩, if_pos hm]
      rfl
    · rw [if_neg (by rintro ⟨_, h⟩; exact hm h), if_neg hm]
  | cons x rest ih =>
    intro a b c
    rw [grepStreamLoop, gAux]
    simp only [push3_three]
    rw [ih b c x]
    congr 1
    by_cases hm : pyIn pattern c = true
    · rw [if_pos ⟨by simp, hm⟩, if_pos hm]
      rfl
    · rw [if_neg (by rintro ⟨_, h⟩; exact hm h), if_neg hm]

lemma grepStreamLoop_two (pattern : String) :
    ∀ (rest : List String) (a b : String),
    grepStreamLoop pattern [a, b] rest = gAux pattern (some a) b rest := by
  intro rest
  rcases rest with _ | ⟨x, rest⟩
  · intro a b
    rw [grepStreamLoop, gAux]
    by_cases hm : pyIn pattern b = true
    · rw [if_pos ⟨by simp, hm⟩, if_pos hm]
      rfl
    · rw [if_neg (by rintro ⟨_, h⟩; exact hm h), if_neg hm]
  · intro a b
    rw [grepStreamLoop, gAux]
    simp only [push3_two]
    rw [grepStreamLoop_three pattern rest a b x]
    congr 1
    by_cases hm : pyIn pattern b = true
    · rw [if_pos ⟨by simp, hm⟩, if_pos hm]
      rfl
    · rw [if_neg (by rintro ⟨_, h⟩; exact hm h), if_neg hm]

/-- C8 (amended): the two grep variants agree on every log whose first line
does not contain the pattern, and on every log of at most one line; the
counterexample forces exactly the excluded case (a matching first line in a
log of two or more lines, which the streaming version misses). -/
theorem c8_grep_context_equiv (lines : List String) (pattern : String)
    (h : lines.length ≤ 1 ∨ pyIn pattern (lines.getD 0 "") = false) :
    grep_with_context lines pattern = grep_with_context_streaming lines pattern := by
  rw [grep_with_context_eq_grepIdx]
  unfold grep_with_context_streaming
  rcases lines with _ | ⟨l0, lines⟩
  · rfl
  rcases lines with _ | ⟨l1, lines⟩
  · -- a single line: both sides check it with no neighbours
    rw [grepIdx_eq_gAux, gAux]
    show _ = grepStreamLoop pattern [l0] []
    rw [grepStreamLoop]
    by_cases hm : pyIn pattern l0 = true
    · rw [if_pos hm, if_pos ⟨by simp, hm⟩]
      rfl
    · rw [if_neg hm, if_neg (by rintro ⟨_, hx⟩; exact hm hx)]
  · -- at least two lines: the hypothesis rules out a match on line 0
    have hm0 : pyIn pattern l0 = false := by
      rcases h with hlen | hm
      · simp at hlen
      · simpa using hm
    rw [grepIdx_eq_gAux, gAux]
    show _ = grepStreamLoop pattern [l0, l1] lines
    rw [grepStreamLoop_two pattern lines l0 l1]
    rw [hm0]
    simp

/-- Witness for C8 (amended) on a concrete three-line log whose first line
does not match. -/
theorem c8_grep_context_equiv_witness :
    grep_with_context ["boot", "ERROR fail", "done"] "ERROR" =
      grep_with_context_streaming ["boot", "ERROR fail", "done"] "ERROR" :=
  c8_grep_context_equiv ["boot", "ERROR fail", "done"] "ERROR" (Or.inr (by decide))

/-! ### `register_simulator_deep_dive.py` : `AdvancedRegisterSimulator`

The register value is a Python `int` (unbounded, signed), embedded as `ℤ`.
Python's operators on it: `x << n` is `x * 2 ^ n`, `x >> n` is floor division
by `2 ^ n` (`Int.ediv` by a positive power), `~x` is `Int.lnot`, and `&`,
`|`, `^` are `Int.land`, `Int.lor`, `Int.xor`.  The `history` log and
`breakpoints` set never influence `value` and are omitted.  Operations whose
Python counterpart raises (`count %= width` with `width = 0`,
`1 << width` / `mask << start_bit` with a negative shift) return `none`.
-/

/-- Python `x << n` on unbounded integers. -/
def pyShl (x : ℤ) (n : ℕ) : ℤ := x * 2 ^ n

/-- Python `x >> n` on unbounded integers (floor division). -/
def pyShr (x : ℤ) (n : ℕ) : ℤ := x / 2 ^ n

/-- The mutable state of an `AdvancedRegisterSimulator`: its bit width and the
current register value (`max_value` is the derived constant `(1 << width) - 1`). -/
structure RegState where
  width : ℕ
  value : ℤ
deriving DecidableEq

/-- `max_value = (1 << width) - 1`. -/
def RegState.maxValue (st : RegState) : ℤ := pyShl 1 st.width - 1

/-- `_validate_position`: `0 <= position < width`. -/
def validPosition (st : RegState) (p : ℤ) : Prop := 0 ≤ p ∧ p < (st.width : ℤ)

instance (st : RegState) (p : ℤ) : Decidable (validPosition st p) := by
  unfold validPosition
  infer_instance

/-- `set_bit`: `value |= (1 << position)` after position validation. -/
def set_bit (st : RegState) (p : ℤ) : RegState × Bool :=
  if validPosition st p then
    ({ st with value := Int.lor st.value (pyShl 1 p.toNat) }, true)
  else (st, false)

/-- `clear_bit`: `value &= ~(1 << position)` after position validation. -/
def clear_bit (st : RegState) (p : ℤ) : RegState × Bool :=
  if validPosition st p then
    ({ st with value := Int.land st.value (Int.lnot (pyShl 1 p.toNat)) }, true)
  else (st, false)

/-- `toggle_bit`: `value ^= (1 << position)` after position validation. -/
def toggle_bit (st : RegState) (p : ℤ) : RegState × Bool :=
  if validPosition st p then
    ({ st with value := Int.xor st.value (pyShl 1 p.toNat) }, true)
  else (st, false)

/-- `extract_field`: width guard, then `(value >> start_bit) & ((1 << width) - 1)`.
A negative `width` or `start_bit` makes the Python shift raise: `none`. -/
def extract_field (st : RegState) (s width : ℤ) : Option ℤ :=
  if s + width > (st.width : ℤ) then none
  else if width < 0 then none
  else if s < 0 then none
  else some (Int.land (pyShr st.value s.toNat) (pyShl 1 width.toNat - 1))

/-- `insert_field`: range and size guards, then
`value = (value & ~mask) | (value_to_insert << start_bit)` with
`mask = ((1 << width) - 1) << start_bit`.  Negative `width`/`start_bit` make
the Python shifts raise: `none`. -/
def insert_field (st : RegState) (s width v : ℤ) : Option (RegState × Bool) :=
  if s + width > (st.width : ℤ) then some (st, false)
  else if width < 0 then none
  else if v ≥ pyShl 1 width.toNat then some (st, false)
  else if s < 0 then none
  else
    let mask := pyShl (pyShl 1 width.toNat - 1) s.toNat
    let newVal := Int.lor (Int.land st.value (Int.lnot mask)) (pyShl v s.toNat)
    some ({ st with value := newVal }, true)

/-- `rotate_left`: `count %= width` (raises on `width = 0`), then
`((value << count) | (value >> (width - count))) & max_value`. -/
def rotate_left (st : RegState) (c : ℤ) : Option RegState :=
  if st.width = 0 then none
  else
    let c2 := (c % (st.width : ℤ)).toNat
    let newVal := Int.land (Int.lor (pyShl st.value c2) (pyShr st.value (st.width - c2))) st.maxValue
    some { st with value := newVal }

/-- `rotate_right`: `count %= width` (raises on `width = 0`), then
`((value >> count) | (value << (width - count))) & max_value`. -/
def rotate_right (st : RegState) (c : ℤ) : Option RegState :=
  if st.width = 0 then none
  else
    let c2 := (c % (st.width : ℤ)).toNat
    let newVal := Int.land (Int.lor (pyShr st.value c2) (pyShl st.value (st.width - c2))) st.maxValue
    some { st with value := newVal }

/-- One operation of the C9 claim's list. -/
inductive RegOp where
  | set (p : ℤ)
  | clear (p : ℤ)
  | toggle (p : ℤ)
  | insert (s width v : ℤ)
  | rotl (c : ℤ)
  | rotr (c : ℤ)
deriving DecidableEq

/-- Apply one operation to the register state (discarding the returned `Bool`). -/
def applyOp (st : RegState) : RegOp → Option RegState
  | .set p => some (set_bit st p).1
  | .clear p => some (clear_bit st p).1
  | .toggle p => some (toggle_bit st p).1
  | .insert s width v => (insert_field st s width v).map Prod.fst
  | .rotl c => rotate_left st c
  | .rotr c => rotate_right st c

/-- Run a sequence of operations from a fresh `AdvancedRegisterSimulator(w)`
(initial `value = 0`); `none` as soon as an operation raises. -/
def runOps (w : ℕ) (ops : List RegOp) : Option RegState :=
  ops.foldl (fun acc op => acc.bind (fun st => applyOp st op)) (some ⟨w, 0⟩)

/-- The arguments of `insert_field` whose misuse silently corrupts the
register: a negative `value` slips past the `value >= (1 << width)` size
check.  All other operations validate or raise. -/
def RegOp.insertValueNonneg : RegOp → Bool
  | .insert _ _ v => decide (0 ≤ v)
  | _ => true

/-! Transfer lemmas between the `ℤ` operations used by the simulator and the
corresponding `ℕ` operations. -/

lemma int_lor_coe (a b : ℕ) : Int.lor (a : ℤ) (b : ℤ) = ((a ||| b : ℕ) : ℤ) := by
  simp [Int.lor]

lemma int_land_coe (a b : ℕ) : Int.land (a : ℤ) (b : ℤ) = ((a &&& b : ℕ) : ℤ) := by
  simp [Int.land]

lemma int_xor_coe (a b : ℕ) : Int.xor (a : ℤ) (b : ℤ) = ((a ^^^ b : ℕ) : ℤ) := by
  simp [Int.xor]

lemma int_land_lnot_coe (a b : ℕ) :
    Int.land (a : ℤ) (Int.lnot (b : ℤ)) = ((Nat.ldiff a b : ℕ) : ℤ) := by
  simp [Int.land, Int.lnot]

lemma pyShl_coe (a n : ℕ) : pyShl (a : ℤ) n = ((a <<< n : ℕ) : ℤ) := by
  rw [pyShl, Nat.shiftLeft_eq]
  push_cast
  ring

lemma pyShr_coe (a n : ℕ) : pyShr (a : ℤ) n = ((a >>> n : ℕ) : ℤ) := by
  rw [pyShr, Nat.shiftRight_eq_div_pow, Int.ofNat_ediv]
  push_cast
  ring

lemma ldiff_lt_two_pow {a m w : ℕ} (ha : a < 2 ^ w) : Nat.ldiff a m < 2 ^ w := by
  apply lt_two_pow_of_high_bits_false
  intro i hi
  rw [Nat.testBit_ldiff, Nat.testBit_eq_false_of_lt (lt_of_lt_of_le ha
    (Nat.pow_le_pow_right (by norm_num) hi))]
  rfl

lemma pyShl_one (n : ℕ) : pyShl 1 n = ((2 ^ n : ℕ) : ℤ) := by
  rw [pyShl, one_mul]
  push_cast
  ring

lemma natval_bounds {X w : ℕ} (h : X < 2 ^ w) :
    0 ≤ ((X : ℕ) : ℤ) ∧ ((X : ℕ) : ℤ) ≤ 2 ^ w - 1 := by
  have hcast : ((2 ^ w : ℕ) : ℤ) = 2 ^ w := by push_cast; ring
  omega

lemma value_toNat_lt {st : RegState} (h0 : 0 ≤ st.value)
    (h1 : st.value ≤ 2 ^ st.width - 1) : st.value.toNat < 2 ^ st.width := by
  have hcast : ((2 ^ st.width : ℕ) : ℤ) = 2 ^ st.width := by push_cast; ring
  omega

lemma two_pow_toNat_lt {p : ℤ} {w : ℕ} (hp : 0 ≤ p) (hpw : p < (w : ℤ)) :
    2 ^ p.toNat < 2 ^ w :=
  Nat.pow_lt_pow_right (by norm_num) (by omega)

lemma applyOp_preserves {st st2 : RegState} {op : RegOp}
    (h0 : 0 ≤ st.value) (h1 : st.value ≤ 2 ^ st.width - 1)
    (hop : op.insertValueNonneg = true)
    (happ : applyOp st op = some st2) :
    st2.width = st.width ∧ 0 ≤ st2.value ∧ st2.value ≤ 2 ^ st.width - 1 := by
  have hva : ((st.value.toNat : ℕ) : ℤ) = st.value := Int.toNat_of_nonneg h0
  have ha : st.value.toNat < 2 ^ st.width := value_toNat_lt h0 h1
  cases op with
  | set p =>
    simp only [applyOp, Option.some_inj] at happ
    subst happ
    unfold set_bit
    by_cases hvp : validPosition st p
    · rw [if_pos hvp]
      obtain ⟨hp0, hpw⟩ := hvp
      refine ⟨rfl, ?_⟩
      show 0 ≤ Int.lor st.value (pyShl 1 p.toNat) ∧ _
      rw [← hva, pyShl_one, int_lor_coe]
      exact natval_bounds (Nat.or_lt_two_pow ha (two_pow_toNat_lt hp0 hpw))
    · rw [if_neg hvp]
      exact ⟨rfl, h0, h1⟩
  | clear p =>
    simp only [applyOp, Option.some_inj] at happ
    subst happ
    unfold clear_bit
    by_cases hvp : validPosition st p
    · rw [if_pos hvp]
      refine ⟨rfl, ?_⟩
      show 0 ≤ Int.land st.value (Int.lnot (pyShl 1 p.toNat)) ∧ _
      rw [← hva, pyShl_one, int_land_lnot_coe]
      exact natval_bounds (ldiff_lt_two_pow ha)
    · rw [if_neg hvp]
      exact ⟨rfl, h0, h1⟩
  | toggle p =>
    simp only [applyOp, Option.some_inj] at happ
    subst happ
    unfold toggle_bit
    by_cases hvp : validPosition st p
    · rw [if_pos hvp]
      obtain ⟨hp0, hpw⟩ := hvp
      refine ⟨rfl, ?_⟩
      show 0 ≤ Int.xor st.value (pyShl 1 p.toNat) ∧ _
      rw [← hva, pyShl_one, int_xor_coe]
      exact natval_bounds (Nat.xor_lt_two_pow ha (two_pow_toNat_lt hp0 hpw))
    · rw [if_neg hvp]
      exact ⟨rfl, h0, h1⟩
  | insert s width v =>
    simp only [applyOp] at happ
    unfold insert_field at happ
    by_cases hg1 : s + width > (st.width : ℤ)
    · rw [if_pos hg1] at happ
      simp only [Option.map_some', Option.some_inj] at happ
      subst happ
      exact ⟨rfl, h0, h1⟩
    rw [if_neg hg1] at happ
    by_cases hg2 : width < 0
    · rw [if_pos hg2] at happ
      exact Option.noConfusion happ
    rw [if_neg hg2] at happ
    by_cases hg3 : v ≥ pyShl 1 width.toNat
    · rw [if_pos hg3] at happ
      simp only [Option.map_some', Option.some_inj] at happ
      subst happ
      exact ⟨rfl, h0, h1⟩
    rw [if_neg hg3] at happ
    by_cases hg4 : s < 0
    · rw [if_pos hg4] at happ
      exact Option.noConfusion happ
    rw [if_neg hg4] at happ
    simp only [Option.map_some', Option.some_inj] at happ
    subst happ
    refine ⟨rfl, ?_⟩
    have hv0 : 0 ≤ v := by
      simpa [RegOp.insertValueNonneg] using hop
    have hvv : ((v.toNat : ℕ) : ℤ) = v := Int.toNat_of_nonneg hv0
    have hvlt : v.toNat < 2 ^ width.toNat := by
      rw [pyShl_one] at hg3
      omega
    have hsw : s.toNat + width.toNat ≤ st.width := by omega
    show 0 ≤ Int.lor (Int.land st.value _) (pyShl v s.toNat) ∧ _
    have hmask1 : pyShl 1 width.toNat - 1 = ((2 ^ width.toNat - 1 : ℕ) : ℤ) := by
      rw [pyShl_one]
      have hge : 1 ≤ 2 ^ width.toNat := Nat.one_le_two_pow
      omega
    rw [hmask1, pyShl_coe, ← hva, ← hvv, pyShl_coe, int_land_lnot_coe, int_lor_coe]
    apply natval_bounds
    apply Nat.or_lt_two_pow (ldiff_lt_two_pow ha)
    calc v.toNat <<< s.toNat < 2 ^ (width.toNat + s.toNat) := Nat.shiftLeft_lt hvlt
      _ ≤ 2 ^ st.width := Nat.pow_le_pow_right (by norm_num) (by omega)
  | rotl c =>
    simp only [applyOp] at happ
    unfold rotate_left at happ
    by_cases hw0 : st.width = 0
    · rw [if_pos hw0] at happ
      exact Option.noConfusion happ
    rw [if_neg hw0] at happ
    simp only [Option.some_inj] at happ
    subst happ
    refine ⟨rfl, ?_⟩
    show 0 ≤ Int.land _ st.maxValue ∧ _
    have hmax : st.maxValue = ((2 ^ st.width - 1 : ℕ) : ℤ) := by
      rw [RegState.maxValue, pyShl_one]
      have hge : 1 ≤ 2 ^ st.width := Nat.one_le_two_pow
      omega
    rw [hmax, ← hva, pyShl_coe, pyShr_coe, int_lor_coe, int_land_coe]
    apply natval_bounds
    have hle := Nat.and_le_right (n := st.value.toNat <<< (c % (st.width : ℤ)).toNat |||
      st.value.toNat >>> (st.width - (c % (st.width : ℤ)).toNat)) (m := 2 ^ st.width - 1)
    have hge : 1 ≤ 2 ^ st.width := Nat.one_le_two_pow
    omega
  | rotr c =>
    simp only [applyOp] at happ
    unfold rotate_right at happ
    by_cases hw0 : st.width = 0
    · rw [if_pos hw0] at happ
      exact Option.noConfusion happ
    rw [if_neg hw0] at happ
    simp only [Option.some_inj] at happ
    subst happ
    refine ⟨rfl, ?_⟩
    show 0 ≤ Int.land _ st.maxValue ∧ _
    have hmax : st.maxValue = ((2 ^ st.width - 1 : ℕ) : ℤ) := by
      rw [RegState.maxValue, pyShl_one]
      have hge : 1 ≤ 2 ^ st.width := Nat.one_le_two_pow
      omega
    rw [hmax, ← hva, pyShr_coe, pyShl_coe, int_lor_coe, int_land_coe]
    apply natval_bounds
    have hle := Nat.and_le_right (n := st.value.toNat >>> (c % (st.width : ℤ)).toNat |||
      st.value.toNat <<< (st.width - (c % (st.width : ℤ)).toNat)) (m := 2 ^ st.width - 1)
    have hge : 1 ≤ 2 ^ st.width := Nat.one_le_two_pow
    omega

lemma foldl_bind_none (ops : List RegOp) :
    ops.foldl (fun acc op => acc.bind (fun st => applyOp st op)) none = none := by
  induction ops with
  | nil => rfl
  | cons op ops ih =>
    rw [List.foldl_cons]
    exact ih

lemma runOps_aux :
    ∀ ops : List RegOp, ∀ st : RegState,
    0 ≤ st.value → st.value ≤ 2 ^ st.width - 1 →
    (∀ op ∈ ops, op.insertValueNonneg = true) →
    ∀ st2, ops.foldl (fun acc op => acc.bind (fun s => applyOp s op)) (some st) = some st2 →
    st2.width = st.width ∧ 0 ≤ st2.value ∧ st2.value ≤ 2 ^ st.width - 1 := by
  intro ops
  induction ops with
  | nil =>
    intro st h0 h1 _ st2 hrun
    obtain rfl : st = st2 := Option.some_injective _ hrun
    exact ⟨rfl, h0, h1⟩
  | cons op ops ih =>
    intro st h0 h1 hops st2 hrun
    rw [List.foldl_cons] at hrun
    rcases happ : applyOp st op with _ | st1
    · rw [Option.some_bind, happ, foldl_bind_none] at hrun
      exact Option.noConfusion hrun
    · rw [Option.some_bind, happ] at hrun
      obtain ⟨hw1, h01, h11⟩ := applyOp_preserves h0 h1
        (hops op (List.mem_cons_self op ops)) happ
      obtain ⟨hw2, h02, h12⟩ := ih st1 h01 (by rw [hw1]; exact h11)
        (fun o ho => hops o (List.mem_cons_of_mem op ho)) st2 hrun
      exact ⟨hw2.trans hw1, h02, by rw [hw1] at h12; exact h12⟩

/-- C9 counterexample: `insert_field(0, 1, -1)` passes the
`value >= (1 << width)` size check (since `-1 < 2`) and drives the register
value to `-1`, outside `[0, 2^w - 1]`. -/
theorem c9_counterexample :
    ∃ st, runOps 32 [RegOp.insert 0 1 (-1)] = some st ∧
      ¬ (0 ≤ st.value ∧ st.value ≤ 2 ^ 32 - 1) := by
  refine ⟨⟨32, -1⟩, ?_, by decide⟩
  show runOps 32 [RegOp.insert 0 1 (-1)] = some ⟨32, -1⟩
  unfold runOps
  rw [List.foldl_cons, List.foldl_nil, Option.some_bind]
  show applyOp ⟨32, 0⟩ (RegOp.insert 0 1 (-1)) = some ⟨32, -1⟩
  simp only [applyOp]
  unfold insert_field
  rw [if_neg (by norm_num), if_neg (by norm_num),
    if_neg (by norm_num [pyShl] : ¬ ((-1 : ℤ) ≥ pyShl 1 (1 : ℤ).toNat)),
    if_neg (by norm_num)]
  simp only [Option.map_some', Option.some_inj]
  have hland : Int.land (RegState.mk 32 0).value
      (Int.lnot (pyShl (pyShl 1 (1 : ℤ).toNat - 1) (0 : ℤ).toNat)) = 0 := by
    show Int.land (Int.ofNat 0) _ = 0
    have hneg : Int.lnot (pyShl (pyShl 1 (1 : ℤ).toNat - 1) (0 : ℤ).toNat) =
        Int.negSucc 1 := by
      norm_num [pyShl, Int.lnot]
    rw [hneg]
    show Int.ofNat (Nat.ldiff 0 1) = 0
    have h : Nat.ldiff 0 1 = 0 := by
      rw [Nat.ldiff, Nat.bitwise]
      simp
    rw [h]
    rfl
  rw [hland]
  have hshl : pyShl (-1 : ℤ) (0 : ℤ).toNat = Int.negSucc 0 := by
    norm_num [pyShl]
    decide
  rw [hshl]
  have hlor : Int.lor 0 (Int.negSucc 0) = -1 := by
    show Int.lor (Int.ofNat 0) (Int.negSucc 0) = -1
    have h : Nat.ldiff 0 0 = 0 := by
      rw [Nat.ldiff, Nat.bitwise]
      simp
    show Int.negSucc (Nat.ldiff 0 0) = -1
    rw [h]
    decide
  rw [hlor]

/-- C9 (amended): for a positive-width register, any sequence of `set_bit`,
`clear_bit`, `toggle_bit`, `insert_field`, `rotate_left`, `rotate_right`
operations in which every `insert_field` is given a nonnegative value keeps
the register value in `[0, 2^w - 1]` (operations whose arguments make Python
raise yield no state at all). -/
theorem c9_register_invariant (w : ℕ) (hw : 0 < w) (ops : List RegOp)
    (hops : ∀ op ∈ ops, op.insertValueNonneg = true) (st : RegState)
    (hrun : runOps w ops = some st) :
    0 ≤ st.value ∧ st.value ≤ 2 ^ w - 1 := by
  have hpos := int_pow_two_pos w
  have h := runOps_aux ops ⟨w, 0⟩ (le_refl 0) (by show (0:ℤ) ≤ 2 ^ w - 1; omega)
    hops st hrun
  exact ⟨h.2.1, h.2.2⟩

/-- Witness for C9 (amended): a four-operation run on an 8-bit register. -/
theorem c9_register_invariant_witness :
    ∃ st, runOps 8 [RegOp.set 3, RegOp.rotl 2, RegOp.toggle 2, RegOp.rotr 9] = some st ∧
      0 ≤ st.value ∧ st.value ≤ 2 ^ 8 - 1 :=
  ⟨⟨8, 18⟩, by decide,
    c9_register_invariant 8 (by norm_num)
      [RegOp.set 3, RegOp.rotl 2, RegOp.toggle 2, RegOp.rotr 9] (by decide)
      ⟨8, 18⟩ (by decide)⟩

lemma insert_extract_nat (a v s wd : ℕ) (hv : v < 2 ^ wd) :
    ((Nat.ldiff a ((2 ^ wd - 1) <<< s) ||| (v <<< s)) >>> s) &&& (2 ^ wd - 1) = v := by
  rw [Nat.and_pow_two_sub_one_eq_mod]
  apply Nat.eq_of_testBit_eq
  intro i
  rw [Nat.testBit_mod_two_pow, Nat.testBit_shiftRight, Nat.testBit_lor,
    Nat.testBit_ldiff, Nat.testBit_shiftLeft, Nat.testBit_shiftLeft,
    Nat.testBit_two_pow_sub_one]
  have hsub : s + i - s = i := by omega
  rw [hsub]
  have hge : s ≤ s + i := by omega
  rcases lt_or_ge i wd with hi | hi
  · simp [hge, hi]
  · simp [hge, Nat.not_lt.mpr hi,
      Nat.testBit_eq_false_of_lt (lt_of_lt_of_le hv (Nat.pow_le_pow_right (by norm_num) hi))]

/-- C10: on a register state with a nonnegative value, inserting a field value
`v < 2^width` at `[start_bit, start_bit + width) ⊆ [0, w)` succeeds and an
immediate `extract_field` of the same field returns exactly `v`. -/
theorem c10_insert_extract (st : RegState) (s wd v : ℕ)
    (h0 : 0 ≤ st.value) (hfield : s + wd ≤ st.width) (hv : v < 2 ^ wd) :
    ∃ st2 : RegState,
      insert_field st (s : ℤ) (wd : ℤ) (v : ℤ) = some (st2, true) ∧
      extract_field st2 (s : ℤ) (wd : ℤ) = some ((v : ℕ) : ℤ) := by
  have hva : ((st.value.toNat : ℕ) : ℤ) = st.value := Int.toNat_of_nonneg h0
  have hpow : ((2 ^ wd : ℕ) : ℤ) = 2 ^ wd := by push_cast; ring
  have hg1 : ¬ ((s : ℤ) + (wd : ℤ) > (st.width : ℤ)) := by
    push_neg
    exact_mod_cast hfield
  have hg2 : ¬ ((wd : ℤ) < 0) := by omega
  have hg3 : ¬ ((v : ℤ) ≥ pyShl 1 ((wd : ℤ)).toNat) := by
    rw [pyShl_one, Int.toNat_natCast]
    omega
  have hg4 : ¬ ((s : ℤ) < 0) := by omega
  have hmask1 : pyShl 1 ((wd : ℤ)).toNat - 1 = ((2 ^ wd - 1 : ℕ) : ℤ) := by
    rw [pyShl_one, Int.toNat_natCast]
    have hge : 1 ≤ 2 ^ wd := Nat.one_le_two_pow
    omega
  have hXval : Int.lor
      (Int.land st.value (Int.lnot (pyShl (pyShl 1 ((wd : ℤ)).toNat - 1) ((s : ℤ)).toNat)))
      (pyShl (v : ℤ) ((s : ℤ)).toNat) =
      ((Nat.ldiff st.value.toNat ((2 ^ wd - 1) <<< s) ||| (v <<< s) : ℕ) : ℤ) := by
    rw [hmask1, Int.toNat_natCast, pyShl_coe, pyShl_coe, ← hva,
      int_land_lnot_coe, int_lor_coe, Int.toNat_natCast]
  refine ⟨⟨st.width, ((Nat.ldiff st.value.toNat ((2 ^ wd - 1) <<< s) ||| (v <<< s) : ℕ) : ℤ)⟩,
    ?_, ?_⟩
  · unfold insert_field
    rw [if_neg hg1, if_neg hg2, if_neg hg3, if_neg hg4]
    simp only [Option.some_inj]
    rw [Prod.mk.injEq]
    refine ⟨?_, rfl⟩
    rw [RegState.mk.injEq]
    exact ⟨rfl, hXval⟩
  · unfold extract_field
    rw [if_neg hg1, if_neg hg2, if_neg hg4]
    rw [Option.some_inj]
    rw [Int.toNat_natCast, hmask1, pyShr_coe, int_land_coe]
    have hnat := insert_extract_nat st.value.toNat v s wd hv
    rw [hnat]

/-- Witness for C10 at a concrete 32-bit register: insert `171` into bits
`[4, 12)` of value `5`, then extract it back. -/
theorem c10_insert_extract_witness :
    ∃ st2 : RegState,
      insert_field ⟨32, 5⟩ ((4 : ℕ) : ℤ) ((8 : ℕ) : ℤ) ((171 : ℕ) : ℤ) = some (st2, true) ∧
      extract_field st2 ((4 : ℕ) : ℤ) ((8 : ℕ) : ℤ) = some ((171 : ℕ) : ℤ) :=
  c10_insert_extract ⟨32, 5⟩ 4 8 171 (by norm_num) (by norm_num) (by norm_num)

/-! ### `nvda-latency-min-max-avg-window-size-k.py` : `sliding_window_stats`
and `sliding_window_stats_simple`

Latencies are embedded over `ℚ` (exact arithmetic, as the claim specifies).
The twin monotonic deques hold indices, front at the head of the list;
`deque.pop()` in the maintenance loops removes from the back, so the loop
`while deque and latencies[deque[-1]] >= current: deque.pop()` removes the
longest suffix whose values are `>= current`.
-/

/-- Remove the longest suffix of elements satisfying `p` (the
`while d and p(d[-1]): d.pop()` loop on a deque whose front is the list head). -/
def popBackWhile (p : ℕ → Bool) (d : List ℕ) : List ℕ :=
  (d.reverse.dropWhile p).reverse

/-- One iteration of the `for i in range(len(latencies))` loop of
`sliding_window_stats`, acting on `(results, min_deque, max_deque, window_sum)`. -/
structure SWState where
  results : List (ℚ × ℚ × ℚ)
  minDeque : List ℕ
  maxDeque : List ℕ
  windowSum : ℚ

def swStep (lat : List ℚ) (k : ℕ) (s : SWState) (i : ℕ) : SWState :=
  let current := lat.getD i 0
  let windowSum1 := s.windowSum + current
  let minD1 := popBackWhile (fun j => decide (current ≤ lat.getD j 0)) s.minDeque ++ [i]
  let maxD1 := popBackWhile (fun j => decide (lat.getD j 0 ≤ current)) s.maxDeque ++ [i]
  let minD2 := if ((minD1.headD 0 : ℕ) : ℤ) ≤ (i : ℤ) - (k : ℤ) then minD1.tail else minD1
  let maxD2 := if ((maxD1.headD 0 : ℕ) : ℤ) ≤ (i : ℤ) - (k : ℤ) then maxD1.tail else maxD1
  if k - 1 ≤ i then
    let windowSum2 := if k ≤ i then windowSum1 - lat.getD (i - k) 0 else windowSum1
    { results := s.results ++
        [(lat.getD (minD2.headD 0) 0, windowSum2 / (k : ℚ), lat.getD (maxD2.headD 0) 0)],
      minDeque := minD2, maxDeque := maxD2, windowSum := windowSum2 }
  else
    { results := s.results, minDeque := minD2, maxDeque := maxD2, windowSum := windowSum1 }

/-- `sliding_window_stats` from the source: guard, then the deque loop. -/
def sliding_window_stats (lat : List ℚ) (k : ℤ) : List (ℚ × ℚ × ℚ) :=
  if lat = [] ∨ k ≤ 0 ∨ (lat.length : ℤ) < k then []
  else ((List.range lat.length).foldl (swStep lat k.toNat) ⟨[], [], [], 0⟩).results

/-- Python's `min` on a nonempty list. -/
def listMin : List ℚ → ℚ
  | [] => 0
  | x :: xs => xs.foldl min x

/-- Python's `max` on a nonempty list. -/
def listMax : List ℚ → ℚ
  | [] => 0
  | x :: xs => xs.foldl max x

/-- `sliding_window_stats_simple` from the source: same guard, then for each
window start `i` take the slice `latencies[i:i+k]` and compute min/avg/max. -/
def sliding_window_stats_simple (lat : List ℚ) (k : ℤ) : List (ℚ × ℚ × ℚ) :=
  if lat = [] ∨ k ≤ 0 ∨ (lat.length : ℤ) < k then []
  else (List.range (lat.length - k.toNat + 1)).map (fun i =>
    let window := (lat.drop i).take k.toNat
    (listMin window, window.sum / ((k : ℤ) : ℚ), listMax window))

/-! Specification of the deque contents after `m` loop iterations: the indices
`j` of the current window (`m ≤ j + k`) that are strict minima of the suffix
`v j < v l` for every later `l < m`.  Both the min deque (with `v` the
latencies) and the max deque (with `v` the negated latencies) satisfy it. -/

def dequeSpec (v : ℕ → ℚ) (k m : ℕ) : List ℕ :=
  (List.range m).filter
    (fun j => decide (m ≤ j + k) && decide (∀ l, l < m → j < l → v j < v l))

lemma popBackWhile_nil (p : ℕ → Bool) : popBackWhile p [] = [] := rfl

lemma popBackWhile_cons (p : ℕ → Bool) (x : ℕ) (xs : List ℕ) :
    popBackWhile p (x :: xs) =
      if popBackWhile p xs = [] ∧ p x then [] else x :: popBackWhile p xs := by
  have hxs_def : popBackWhile p xs = (xs.reverse.dropWhile p).reverse := rfl
  unfold popBackWhile
  rw [List.reverse_cons, List.dropWhile_append]
  by_cases hxs : (xs.reverse.dropWhile p).isEmpty = true
  · have hnil : xs.reverse.dropWhile p = [] := List.isEmpty_iff.mp hxs
    have hpopnil : popBackWhile p xs = [] := by rw [hxs_def, hnil]; rfl
    rw [if_pos hxs]
    by_cases hx : p x = true
    · rw [List.dropWhile_cons_of_pos hx]
      rw [if_pos ⟨hpopnil, hx⟩]
      rfl
    · rw [List.dropWhile_cons_of_neg hx]
      rw [if_neg (by rintro ⟨_, hc⟩; exact hx hc)]
      rw [hnil]
      rfl
  · have hne : xs.reverse.dropWhile p ≠ [] := by
      intro hc
      rw [hc] at hxs
      exact hxs rfl
    have hpopne : popBackWhile p xs ≠ [] := by
      rw [hxs_def]
      simpa using hne
    rw [if_neg hxs, if_neg (by rintro ⟨hc, _⟩; exact hpopne hc)]
    rw [List.reverse_append]
    simp

/-- Popping `>= c` from the back of a deque whose values strictly increase
toward the back keeps exactly the elements with value `< c`. -/
lemma popBackWhile_eq_filter (v : ℕ → ℚ) (c : ℚ) :
    ∀ d : List ℕ, List.Pairwise (fun a b => v a < v b) d →
    popBackWhile (fun j => decide (c ≤ v j)) d = d.filter (fun j => decide (v j < c)) := by
  intro d
  induction d with
  | nil => intro _; rfl
  | cons x xs ih =>
    intro hpair
    obtain ⟨hx_rel, hxs_pair⟩ := List.pairwise_cons.mp hpair
    have hxs := ih hxs_pair
    rw [popBackWhile_cons, hxs, List.filter_cons]
    by_cases hx : c ≤ v x
    · have hfilter : xs.filter (fun j => decide (v j < c)) = [] := by
        rw [List.filter_eq_nil_iff]
        intro j hj
        simp only [decide_eq_true_eq]
        push_neg
        have := hx_rel j hj
        linarith
      rw [if_pos ⟨hfilter, by simp [hx]⟩]
      have hxc : (decide (v x < c)) = false := by
        simp only [decide_eq_false_iff_not]
        push_neg
        exact hx
      rw [hxc, hfilter]
      simp
    · rw [if_neg]
      · have hxc : (decide (v x < c)) = true := by
          simp only [decide_eq_true_eq]
          push_neg at hx
          exact hx
        rw [hxc]
        simp
      · rintro ⟨_, hc⟩
        simp only [decide_eq_true_eq] at hc
        exact hx hc

lemma mem_dequeSpec {v : ℕ → ℚ} {k m j : ℕ} :
    j ∈ dequeSpec v k m ↔
      j < m ∧ m ≤ j + k ∧ ∀ l, l < m → j < l → v j < v l := by
  unfold dequeSpec
  rw [List.mem_filter, List.mem_range]
  simp only [Bool.and_eq_true, decide_eq_true_eq]

lemma dequeSpec_pairwise_lt (v : ℕ → ℚ) (k m : ℕ) :
    (dequeSpec v k m).Pairwise (· < ·) :=
  (List.pairwise_lt_range m).filter _

lemma dequeSpec_pairwise_val (v : ℕ → ℚ) (k m : ℕ) :
    (dequeSpec v k m).Pairwise (fun a b => v a < v b) := by
  apply List.Pairwise.imp_of_mem ?_ (dequeSpec_pairwise_lt v k m)
  intro a b ha hb hab
  obtain ⟨_, _, hball⟩ := mem_dequeSpec.mp ha
  obtain ⟨hbm, _, _⟩ := mem_dequeSpec.mp hb
  exact hball b hbm hab

lemma filter_range_split_head (PA PB : ℕ → Bool) (j0 r : ℕ)
    (hA0 : PA j0 = true) (hB0 : PB j0 = false)
    (heq : ∀ j, j ≠ j0 → PA j = PB j)
    (hlow : ∀ j, j < j0 → PA j = false) :
    (List.range (j0 + 1 + r)).filter PA = j0 :: (List.range (j0 + 1 + r)).filter PB := by
  rw [List.range_add, List.filter_append, List.filter_append]
  have hsucc : List.range (j0 + 1) = List.range j0 ++ [j0] := List.range_succ j0
  rw [hsucc, List.filter_append, List.filter_append]
  have hlowA : (List.range j0).filter PA = [] :=
    List.filter_eq_nil_iff.mpr (fun j hj => by
      rw [hlow j (List.mem_range.mp hj)]; exact Bool.false_ne_true)
  have hlowB : (List.range j0).filter PB = [] :=
    List.filter_eq_nil_iff.mpr (fun j hj => by
      have hj0 : j < j0 := List.mem_range.mp hj
      rw [← heq j (by omega), hlow j hj0]; exact Bool.false_ne_true)
  have hj0A : [j0].filter PA = [j0] := by
    rw [List.filter_cons, if_pos hA0]; rfl
  have hj0B : [j0].filter PB = [] := by
    rw [List.filter_cons, if_neg (by rw [hB0]; exact Bool.false_ne_true)]; rfl
  have htailEq : (List.map (fun x => j0 + 1 + x) (List.range r)).filter PA =
      (List.map (fun x => j0 + 1 + x) (List.range r)).filter PB := by
    apply List.filter_congr
    intro x hx
    obtain ⟨i, _, rfl⟩ := List.mem_map.mp hx
    exact heq _ (by omega)
  rw [hlowA, hlowB, hj0A, hj0B, htailEq]
  simp

/-- The deque-maintenance plus eviction of one loop iteration carries the
deque specification from `m` to `m + 1`. -/
lemma dequeSpec_step (v : ℕ → ℚ) (k : ℕ) (hk : 1 ≤ k) (m : ℕ) :
    (let d1 := popBackWhile (fun j => decide (v m ≤ v j)) (dequeSpec v k m) ++ [m]
     if ((d1.headD 0 : ℕ) : ℤ) ≤ (m : ℤ) - (k : ℤ) then d1.tail else d1) =
      dequeSpec v k (m + 1) := by
  have hpop := popBackWhile_eq_filter v (v m) (dequeSpec v k m) (dequeSpec_pairwise_val v k m)
  have hfil : (dequeSpec v k m).filter (fun j => decide (v j < v m)) =
      (List.range m).filter (fun j =>
        decide (m ≤ j + k) && decide (∀ l, l < m + 1 → j < l → v j < v l)) := by
    unfold dequeSpec
    rw [List.filter_filter]
    apply List.filter_congr
    intro j hj
    have hjm : j < m := List.mem_range.mp hj
    rw [Bool.eq_iff_iff]
    simp only [Bool.and_eq_true, decide_eq_true_eq]
    constructor
    · rintro ⟨hvj, hbound, hball⟩
      refine ⟨hbound, ?_⟩
      intro l hl hjl
      rcases Nat.lt_succ_iff_lt_or_eq.mp hl with hlm | rfl
      · exact hball l hlm hjl
      · exact hvj
    · rintro ⟨hbound, hball⟩
      exact ⟨hball m (by omega) hjm, hbound, fun l hl hjl => hball l (by omega) hjl⟩
  have hspec1 : dequeSpec v k (m + 1) =
      (List.range m).filter (fun j =>
        decide (m + 1 ≤ j + k) && decide (∀ l, l < m + 1 → j < l → v j < v l)) ++ [m] := by
    unfold dequeSpec
    rw [List.range_succ, List.filter_append]
    congr 1
    rw [List.filter_cons, if_pos ?pm]
    case pm =>
      simp only [Bool.and_eq_true, decide_eq_true_eq]
      exact ⟨by omega, fun l hl hml => absurd hml (by omega)⟩
    rfl
  set PA : ℕ → Bool := fun j =>
    decide (m ≤ j + k) && decide (∀ l, l < m + 1 → j < l → v j < v l) with hPA
  set PB : ℕ → Bool := fun j =>
    decide (m + 1 ≤ j + k) && decide (∀ l, l < m + 1 → j < l → v j < v l) with hPB
  simp only [hpop, hfil]
  rcases lt_or_ge m k with hmk | hmk
  · -- small `m`: window bound holds on both sides, no eviction possible
    have hPAB : ∀ j ∈ List.range m, PA j = PB j := by
      intro j hj
      have hjm : j < m := List.mem_range.mp hj
      simp only [hPA, hPB]
      have h1 : (decide (m ≤ j + k)) = true := by simp; omega
      have h2 : (decide (m + 1 ≤ j + k)) = true := by simp; omega
      rw [h1, h2]
    rw [List.filter_congr hPAB]
    rw [if_neg ?hne]
    case hne =>
      intro hcond
      rcases hd : (List.range m).filter PB ++ [m] with _ | ⟨h0, t⟩
      · exact List.append_ne_nil_of_right_ne_nil _ (by simp) hd
      · rw [hd] at hcond
        simp only [List.headD_cons] at hcond
        have hmem : h0 ∈ (List.range m).filter PB ++ [m] := by
          rw [hd]; exact List.mem_cons_self _ _
        rcases List.mem_append.mp hmem with hin | hin
        · have h0m : h0 < m := List.mem_range.mp (List.mem_filter.mp hin).1
          omega
        · have h0m : h0 = m := by simpa using hin
          omega
    rw [hspec1]
  · -- large `m`: the only index the two bounds disagree on is `j0 = m - k`
    have hB0 : PB (m - k) = false := by
      simp only [hPB]
      have h2 : (decide (m + 1 ≤ (m - k) + k)) = false := by simp; omega
      rw [h2, Bool.false_and]
    have heq : ∀ j, j ≠ m - k → PA j = PB j := by
      intro j hj
      simp only [hPA, hPB]
      rcases lt_or_ge j (m - k) with hlt | hge
      · have h1 : (decide (m ≤ j + k)) = false := by simp; omega
        have h2 : (decide (m + 1 ≤ j + k)) = false := by simp; omega
        rw [h1, h2]
      · have h1 : (decide (m ≤ j + k)) = true := by simp; omega
        have h2 : (decide (m + 1 ≤ j + k)) = true := by simp; omega
        rw [h1, h2]
    by_cases hA0 : PA (m - k) = true
    · -- the stale index survives maintenance: it is the head and gets evicted
      have hlow : ∀ j, j < m - k → PA j = false := by
        intro j hj
        simp only [hPA]
        have h1 : (decide (m ≤ j + k)) = false := by simp; omega
        rw [h1, Bool.false_and]
      obtain ⟨r, hr⟩ : ∃ r, m = (m - k) + 1 + r := ⟨m - (m - k) - 1, by omega⟩
      have hsplit := filter_range_split_head PA PB (m - k) r hA0 hB0 heq hlow
      rw [← hr] at hsplit
      rw [hsplit]
      rw [if_pos ?hyes]
      case hyes =>
        simp only [List.cons_append, List.headD_cons]
        omega
      rw [hspec1]
      rfl
    · -- the stale index was already popped during maintenance: nothing to evict
      have hA0' : PA (m - k) = false := Bool.eq_false_iff.mpr hA0
      have hPAB : ∀ j ∈ List.range m, PA j = PB j := by
        intro j _
        rcases eq_or_ne j (m - k) with rfl | hne
        · rw [hA0', hB0]
        · exact heq j hne
      rw [List.filter_congr hPAB]
      rw [if_neg ?hne2]
      case hne2 =>
        intro hcond
        rcases hd : (List.range m).filter PB ++ [m] with _ | ⟨h0, t⟩
        · exact List.append_ne_nil_of_right_ne_nil _ (by simp) hd
        · rw [hd] at hcond
          simp only [List.headD_cons] at hcond
          have hmem : h0 ∈ (List.range m).filter PB ++ [m] := by
            rw [hd]; exact List.mem_cons_self _ _
          rcases List.mem_append.mp hmem with hin | hin
          · have hPBh := (List.mem_filter.mp hin).2
            rw [hPB] at hPBh
            simp only [Bool.and_eq_true, decide_eq_true_eq] at hPBh
            omega
          · have h0m : h0 = m := by simpa using hin
            omega
      rw [hspec1]

/-- Every window index has a suffix-minimum at or after it with a value no
larger than its own. -/
lemma exists_suffix_min (v : ℕ → ℚ) (m : ℕ) :
    ∀ d j, m - j = d → j < m →
    ∃ h, j ≤ h ∧ h < m ∧ (∀ l, l < m → h < l → v h < v l) ∧ v h ≤ v j := by
  intro d
  induction d using Nat.strong_induction_on with
  | _ d ih =>
    intro j hd hj
    by_cases hball : ∀ l, l < m → j < l → v j < v l
    · exact ⟨j, le_refl j, hj, hball, le_refl _⟩
    · push_neg at hball
      obtain ⟨l, hl, hjl, hvl⟩ := hball
      obtain ⟨h, hlh, hhm, hball2, hvh⟩ := ih (m - l) (by omega) l rfl hl
      exact ⟨h, by omega, hhm, hball2, le_trans hvh hvl⟩

/-- After `m ≥ 1` iterations (with `k ≥ 1`), the deque is nonempty and its
front index lies in the window and minimises `v` over the window. -/
lemma dequeSpec_head_min (v : ℕ → ℚ) (k m : ℕ) (hk : 1 ≤ k) (hm : 1 ≤ m) :
    (m - k ≤ (dequeSpec v k m).headD 0 ∧ (dequeSpec v k m).headD 0 < m) ∧
    ∀ j, m - k ≤ j → j < m → v ((dequeSpec v k m).headD 0) ≤ v j := by
  have hmem_last : m - 1 ∈ dequeSpec v k m := by
    rw [mem_dequeSpec]
    exact ⟨by omega, by omega, fun l hl hml => absurd hml (by omega)⟩
  rcases hd : dequeSpec v k m with _ | ⟨h0, t⟩
  · rw [hd] at hmem_last
    exact absurd hmem_last (List.not_mem_nil _)
  have hh0_mem : h0 ∈ dequeSpec v k m := by
    rw [hd]
    exact List.mem_cons_self _ _
  obtain ⟨hh0m, hh0b, hh0ball⟩ := mem_dequeSpec.mp hh0_mem
  have hh0_minIdx : ∀ x ∈ dequeSpec v k m, h0 ≤ x := by
    intro x hx
    have hpw := dequeSpec_pairwise_lt v k m
    rw [hd] at hpw hx
    rcases List.mem_cons.mp hx with rfl | hxt
    · exact le_refl _
    · exact le_of_lt ((List.pairwise_cons.mp hpw).1 x hxt)
  simp only [List.headD_cons]
  refine ⟨⟨by omega, hh0m⟩, ?_⟩
  intro j hjw hjm
  obtain ⟨h, hjh, hhm, hball, hvh⟩ := exists_suffix_min v m (m - j) j rfl hjm
  have hh_mem : h ∈ dequeSpec v k m := by
    rw [mem_dequeSpec]
    exact ⟨hhm, by omega, hball⟩
  have hh0h : h0 ≤ h := hh0_minIdx h hh_mem
  rcases eq_or_lt_of_le hh0h with rfl | hlt
  · exact hvh
  · exact le_trans (le_of_lt (hh0ball h hhm hlt)) hvh

/-! ### `min`/`max` of a nonempty list (Python's builtins as left folds). -/

lemma foldl_min_mem (xs : List ℚ) : ∀ x : ℚ, xs.foldl min x ∈ x :: xs := by
  induction xs with
  | nil => intro x; exact List.mem_cons_self _ _
  | cons y ys ih =>
    intro x
    rw [List.foldl_cons]
    rcases List.mem_cons.mp (ih (min x y)) with he | hm
    · rcases min_choice x y with h | h
      · rw [he, h]; exact List.mem_cons_self _ _
      · rw [he, h]
        exact List.mem_cons_of_mem _ (List.mem_cons_self _ _)
    · exact List.mem_cons_of_mem _ (List.mem_cons_of_mem _ hm)

lemma foldl_min_le (xs : List ℚ) : ∀ x y : ℚ, y ∈ x :: xs → xs.foldl min x ≤ y := by
  induction xs with
  | nil =>
    intro x y hy
    rcases List.mem_cons.mp hy with rfl | h
    · exact le_refl _
    · exact absurd h (List.not_mem_nil _)
  | cons z zs ih =>
    intro x y hy
    rw [List.foldl_cons]
    have hhead : zs.foldl min (min x z) ≤ min x z :=
      ih (min x z) (min x z) (List.mem_cons_self _ _)
    rcases List.mem_cons.mp hy with rfl | hy2
    · exact le_trans hhead (min_le_left _ _)
    · rcases List.mem_cons.mp hy2 with rfl | hy3
      · exact le_trans hhead (min_le_right _ _)
      · exact ih (min x z) y (List.mem_cons_of_mem _ hy3)

lemma foldl_max_mem (xs : List ℚ) : ∀ x : ℚ, xs.foldl max x ∈ x :: xs := by
  induction xs with
  | nil => intro x; exact List.mem_cons_self _ _
  | cons y ys ih =>
    intro x
    rw [List.foldl_cons]
    rcases List.mem_cons.mp (ih (max x y)) with he | hm
    · rcases max_choice x y with h | h
      · rw [he, h]; exact List.mem_cons_self _ _
      · rw [he, h]
        exact List.mem_cons_of_mem _ (List.mem_cons_self _ _)
    · exact List.mem_cons_of_mem _ (List.mem_cons_of_mem _ hm)

lemma le_foldl_max (xs : List ℚ) : ∀ x y : ℚ, y ∈ x :: xs → y ≤ xs.foldl max x := by
  induction xs with
  | nil =>
    intro x y hy
    rcases List.mem_cons.mp hy with rfl | h
    · exact le_refl _
    · exact absurd h (List.not_mem_nil _)
  | cons z zs ih =>
    intro x y hy
    rw [List.foldl_cons]
    have hhead : max x z ≤ zs.foldl max (max x z) :=
      ih (max x z) (max x z) (List.mem_cons_self _ _)
    rcases List.mem_cons.mp hy with rfl | hy2
    · exact le_trans (le_max_left _ _) hhead
    · rcases List.mem_cons.mp hy2 with rfl | hy3
      · exact le_trans (le_max_right _ _) hhead
      · exact ih (max x z) y (List.mem_cons_of_mem _ hy3)

lemma listMin_mem {w : List ℚ} (hw : w ≠ []) : listMin w ∈ w := by
  rcases w with _ | ⟨x, xs⟩
  · exact absurd rfl hw
  · exact foldl_min_mem xs x

lemma listMin_le {w : List ℚ} {y : ℚ} (hy : y ∈ w) : listMin w ≤ y := by
  rcases w with _ | ⟨x, xs⟩
  · exact absurd hy (List.not_mem_nil _)
  · exact foldl_min_le xs x y hy

lemma listMax_mem {w : List ℚ} (hw : w ≠ []) : listMax w ∈ w := by
  rcases w with _ | ⟨x, xs⟩
  · exact absurd rfl hw
  · exact foldl_max_mem xs x

lemma le_listMax {w : List ℚ} {y : ℚ} (hy : y ∈ w) : y ≤ listMax w := by
  rcases w with _ | ⟨x, xs⟩
  · exact absurd hy (List.not_mem_nil _)
  · exact le_foldl_max xs x y hy

/-! ### Windows as slices. -/

lemma window_length (lat : List ℚ) (a b : ℕ) (hab : a + b ≤ lat.length) :
    ((lat.drop a).take b).length = b := by
  rw [List.length_take, List.length_drop]
  omega

lemma window_getD (lat : List ℚ) (a b i : ℕ) (hab : a + b ≤ lat.length) (hi : i < b) :
    ((lat.drop a).take b).getD i 0 = lat.getD (a + i) 0 := by
  have hlen : i < ((lat.drop a).take b).length := by rw [window_length lat a b hab]; exact hi
  have hlat : a + i < lat.length := by omega
  rw [List.getD_eq_getElem _ _ hlen, List.getD_eq_getElem _ _ hlat]
  rw [List.getElem_take, List.getElem_drop]

lemma window_mem (lat : List ℚ) (a b j : ℕ) (hab : a + b ≤ lat.length)
    (hj1 : a ≤ j) (hj2 : j < a + b) :
    lat.getD j 0 ∈ (lat.drop a).take b := by
  have h1 : ((lat.drop a).take b).getD (j - a) 0 = lat.getD j 0 := by
    rw [window_getD lat a b (j - a) hab (by omega)]
    congr 1
    omega
  rw [← h1]
  have hlen : j - a < ((lat.drop a).take b).length := by
    rw [window_length lat a b hab]; omega
  rw [List.getD_eq_getElem _ _ hlen]
  exact List.getElem_mem _

lemma window_mem_inv (lat : List ℚ) (a b : ℕ) (x : ℚ) (hab : a + b ≤ lat.length)
    (hx : x ∈ (lat.drop a).take b) :
    ∃ j, a ≤ j ∧ j < a + b ∧ lat.getD j 0 = x := by
  obtain ⟨⟨i, hi⟩, hget⟩ := List.get_of_mem hx
  have hib : i < b := by
    have := hi
    rw [window_length lat a b hab] at this
    exact this
  refine ⟨a + i, by omega, by omega, ?_⟩
  rw [← window_getD lat a b i hab hib, List.getD_eq_get _ _ hi]
  exact hget

lemma listMin_window (lat : List ℚ) (a b h : ℕ) (hb : 1 ≤ b) (hab : a + b ≤ lat.length)
    (hh1 : a ≤ h) (hh2 : h < a + b)
    (hmin : ∀ j, a ≤ j → j < a + b → lat.getD h 0 ≤ lat.getD j 0) :
    listMin ((lat.drop a).take b) = lat.getD h 0 := by
  apply le_antisymm
  · exact listMin_le (window_mem lat a b h hab hh1 hh2)
  · have hne : (lat.drop a).take b ≠ [] := by
      intro hc
      have := window_length lat a b hab
      rw [hc] at this
      simp at this
      omega
    obtain ⟨j, hj1, hj2, hj3⟩ := window_mem_inv lat a b (listMin ((lat.drop a).take b)) hab
      (listMin_mem hne)
    rw [← hj3]
    exact hmin j hj1 hj2

lemma listMax_window (lat : List ℚ) (a b h : ℕ) (hb : 1 ≤ b) (hab : a + b ≤ lat.length)
    (hh1 : a ≤ h) (hh2 : h < a + b)
    (hmax : ∀ j, a ≤ j → j < a + b → lat.getD j 0 ≤ lat.getD h 0) :
    listMax ((lat.drop a).take b) = lat.getD h 0 := by
  apply le_antisymm
  · have hne : (lat.drop a).take b ≠ [] := by
      intro hc
      have := window_length lat a b hab
      rw [hc] at this
      simp at this
      omega
    obtain ⟨j, hj1, hj2, hj3⟩ := window_mem_inv lat a b (listMax ((lat.drop a).take b)) hab
      (listMax_mem hne)
    rw [← hj3]
    exact hmax j hj1 hj2
  · exact le_listMax (window_mem lat a b h hab hh1 hh2)

/-! ### Interval sums for the running `window_sum`. -/

lemma intervalSum_snoc (lat : List ℚ) (a b : ℕ) (hab : a ≤ b) (hb : b < lat.length) :
    ((lat.take (b + 1)).drop a).sum = ((lat.take b).drop a).sum + lat.getD b 0 := by
  rw [List.take_succ]
  rw [List.getElem?_eq_getElem hb]
  have htl : (some lat[b]).toList = [lat.getD b 0] := by
    rw [List.getD_eq_getElem _ _ hb]
    rfl
  rw [htl]
  rw [List.drop_append_of_le_length (by rw [List.length_take]; omega)]
  rw [List.sum_append]
  simp

lemma intervalSum_pop (lat : List ℚ) (a b : ℕ) (ha : a < b) (hb : b ≤ lat.length) :
    ((lat.take b).drop a).sum = lat.getD a 0 + ((lat.take b).drop (a + 1)).sum := by
  have hlen : a < (lat.take b).length := by rw [List.length_take]; omega
  rw [List.drop_eq_getElem_cons hlen, List.sum_cons]
  congr 1
  rw [List.getElem_take]
  rw [List.getD_eq_getElem _ _ (by omega : a < lat.length)]

/-- The min/avg/max triple of the window starting at `s`. -/
def windowEntry (lat : List ℚ) (k : ℕ) (s : ℕ) : ℚ × ℚ × ℚ :=
  (listMin ((lat.drop s).take k), ((lat.drop s).take k).sum / (k : ℚ),
    listMax ((lat.drop s).take k))

/-- Main loop invariant of `sliding_window_stats`: after `m` iterations the
results hold the stats of the first `m + 1 - k` windows, the two deques hold
their specifications, and `window_sum` holds the sum of the last
`min m k` processed elements. -/
lemma swFold_invariant (lat : List ℚ) (k : ℕ) (hk : 1 ≤ k) (hkn : k ≤ lat.length) :
    ∀ m, m ≤ lat.length →
    (List.range m).foldl (swStep lat k) ⟨[], [], [], 0⟩ =
      ⟨(List.range (m + 1 - k)).map (windowEntry lat k),
       dequeSpec (fun j => lat.getD j 0) k m,
       dequeSpec (fun j => -(lat.getD j 0)) k m,
       ((lat.take m).drop (m - k)).sum⟩ := by
  intro m
  induction m with
  | zero =>
    intro _
    rw [show 0 + 1 - k = 0 by omega]
    simp [dequeSpec, List.range_zero]
  | succ m ih =>
    intro hm1
    have hmn : m < lat.length := by omega
    rw [List.range_succ, List.foldl_append, ih (by omega), List.foldl_cons, List.foldl_nil]
    have hvmin_step := dequeSpec_step (fun j => lat.getD j 0) k hk m
    simp only [] at hvmin_step
    have hvmax_step := dequeSpec_step (fun j => -(lat.getD j 0)) k hk m
    simp only [] at hvmax_step
    have hpredmax : (fun j => decide (lat.getD j 0 ≤ lat.getD m 0)) =
        (fun j => decide (-(lat.getD m 0) ≤ -(lat.getD j 0))) :=
      funext fun j => decide_eq_decide.mpr (by constructor <;> intro h <;> linarith)
    simp only [swStep]
    rw [hpredmax, hvmin_step, hvmax_step]
    by_cases hcond : k - 1 ≤ m
    · rw [if_pos hcond]
      have hk1 : k ≤ m + 1 := by omega
      -- the updated running sum is the sum of the new window
      have hsum2 : (if k ≤ m then
            ((lat.take m).drop (m - k)).sum + lat.getD m 0 - lat.getD (m - k) 0
          else ((lat.take m).drop (m - k)).sum + lat.getD m 0) =
          ((lat.take (m + 1)).drop (m + 1 - k)).sum := by
        by_cases hkm : k ≤ m
        · rw [if_pos hkm]
          have hsnoc := intervalSum_snoc lat (m - k) m (by omega) hmn
          have hpop2 := intervalSum_pop lat (m - k) (m + 1) (by omega) (by omega)
          have hidx : m - k + 1 = m + 1 - k := by omega
          rw [hidx] at hpop2
          linarith [hsnoc, hpop2]
        · rw [if_neg hkm]
          have hzero : m - k = 0 := by omega
          have hzero1 : m + 1 - k = 0 := by omega
          rw [hzero, hzero1]
          have hsnoc := intervalSum_snoc lat 0 m (by omega) hmn
          rw [hsnoc]
      -- the emitted triple is the window entry of the new window
      have hwindow : ((lat.take (m + 1)).drop (m + 1 - k)).sum =
          ((lat.drop (m + 1 - k)).take k).sum := by
        rw [List.drop_take, show (m + 1) - (m + 1 - k) = k by omega]
      have hminhead := dequeSpec_head_min (fun j => lat.getD j 0) k (m + 1) hk (by omega)
      have hmaxhead := dequeSpec_head_min (fun j => -(lat.getD j 0)) k (m + 1) hk (by omega)
      have hminval : lat.getD ((dequeSpec (fun j => lat.getD j 0) k (m + 1)).headD 0) 0 =
          listMin ((lat.drop (m + 1 - k)).take k) := by
        obtain ⟨⟨hb1, hb2⟩, hmin⟩ := hminhead
        exact (listMin_window lat (m + 1 - k) k
          ((dequeSpec (fun j => lat.getD j 0) k (m + 1)).headD 0) hk (by omega) hb1 (by omega)
          (fun j hj1 hj2 => hmin j hj1 (by omega))).symm
      have hmaxval : lat.getD ((dequeSpec (fun j => -(lat.getD j 0)) k (m + 1)).headD 0) 0 =
          listMax ((lat.drop (m + 1 - k)).take k) := by
        obtain ⟨⟨hb1, hb2⟩, hmax⟩ := hmaxhead
        exact (listMax_window lat (m + 1 - k) k
          ((dequeSpec (fun j => -(lat.getD j 0)) k (m + 1)).headD 0) hk (by omega) hb1 (by omega)
          (fun j hj1 hj2 => by have := hmax j hj1 (by omega); simp only [] at this; linarith)).symm
      -- the results list grows by exactly this entry
      have hres : (List.range (m + 1 + 1 - k)).map (windowEntry lat k) =
          (List.range (m + 1 - k)).map (windowEntry lat k) ++ [windowEntry lat k (m + 1 - k)] := by
        rw [show m + 1 + 1 - k = (m + 1 - k) + 1 by omega, List.range_succ, List.map_append]
        rfl
      rw [hres, hsum2, hwindow, hminval, hmaxval]
      rfl
    · rw [if_neg hcond]
      rw [show m + 1 - k = 0 by omega, show m + 1 + 1 - k = 0 by omega,
        show m - k = 0 by omega]
      rw [intervalSum_snoc lat 0 m (by omega) hmn]

/-- C1: on every latency list (exact arithmetic over `ℚ`) and every integer
window size `k`, the deque-based `sliding_window_stats` returns exactly the
same list of `(min, avg, max)` triples as the naive
`sliding_window_stats_simple`. -/
theorem c1_sliding_window_equiv (lat : List ℚ) (k : ℤ) :
    sliding_window_stats lat k = sliding_window_stats_simple lat k := by
  unfold sliding_window_stats sliding_window_stats_simple
  by_cases hg : lat = [] ∨ k ≤ 0 ∨ (lat.length : ℤ) < k
  · rw [if_pos hg, if_pos hg]
  · rw [if_neg hg, if_neg hg]
    push_neg at hg
    obtain ⟨hne, hkpos, hkle⟩ := hg
    have hk1 : 1 ≤ k.toNat := by omega
    have hkn : k.toNat ≤ lat.length := by omega
    rw [swFold_invariant lat k.toNat hk1 hkn lat.length (le_refl _)]
    show (List.range (lat.length + 1 - k.toNat)).map (windowEntry lat k.toNat) = _
    rw [show lat.length + 1 - k.toNat = lat.length - k.toNat + 1 by omega]
    apply List.map_congr_left
    intro i _
    have hc : ((k.toNat : ℕ) : ℚ) = ((k : ℤ) : ℚ) := by
      have h1 : ((k.toNat : ℕ) : ℤ) = k := Int.toNat_of_nonneg (by omega)
      have h2 := congrArg (fun z : ℤ => (z : ℚ)) h1
      simp only [] at h2
      rw [Int.cast_natCast] at h2
      exact h2
    simp only [windowEntry]
    rw [hc]

end LeetSpec
